import Mathlib

/-!
Verification development for the hclsemver version-resolution engine.

The definitions below are a shallow embedding of the Go sources:
  src/pkg/version/utils.go      (normalizeVersionString, findHighestVersionInRange,
                                 findLowestVersionInRange, RangesOverlap)
  src/pkg/version/search.go     (searchMinorRangeLinear)
  src/unnamed/part_003          (ParseVersionOrRange, ExpandTerraformTildeArrow,
                                 buildRangeFromTildePart)
  src/unnamed/part_004          (MAX_MAJOR, MAX_MINOR, MAX_PATCH, Strategy)
  src/unnamed/part_006          (searchMinorRange, searchPatchVersions,
                                 searchPatchVersionsLinear, linearSearchOverlap)
  src/pkg/version/strategy.go   (compareVersions, DecideVersionOrRange,
                                 ApplyVersionStrategy, ConvertToRangeVersion,
                                 ApplyRangeStrategy, ApplyDynamicStrategy, ...)

Go strings are modelled as lists of characters.  Versions and constraints are
modelled after the external dependency github.com/Masterminds/semver/v3 as used
by the repository: lenient version parsing (optional lowercase v prefix, one to
three dot-separated numeric components, optional prerelease and build
metadata), constraints as an OR-list of AND-lists of comparator/version pairs,
and the Masterminds comparison and check semantics (build metadata ignored,
prerelease precedence, a version with a prerelease only matches a comparator
whose version also carries a prerelease).  Wildcard components (x, X, *),
hyphen ranges and the != comparator of Masterminds are outside this model;
no claim of the specification depends on them.  Whitespace is the space
character, matching every input the repository builds or tests.

Go loops are modelled by fuel-indexed structural recursion.  Every loop in the
source iterates over (a sub-interval of) the bounded simulation cube, so each
fuel argument is chosen generously above the loop's worst case (binary search
over an interval of at most 51 values needs at most 51 steps; the fuel is
never exhausted on inputs inside the bounded space).
-/

namespace HclSemver

/-- Go string, modelled as a list of characters. -/
abbrev GStr := List Char

/-- Coerce a Lean string literal to the Go string model. -/
def gs (s : String) : GStr := s.data

/-! ## Model of github.com/Masterminds/semver/v3: versions -/

/-- Model of semver.Version: numeric triple, raw prerelease and metadata text,
and the original input string (returned by Original). -/
structure Version where
  major : Nat
  minor : Nat
  patch : Nat
  preRaw : GStr := []
  metaRaw : GStr := []
  original : GStr := []
deriving DecidableEq, Repr

/-- Digits of a natural number, most significant first (auxiliary, fuelled). -/
def natDigitsAux : Nat → Nat → GStr
  | 0, _ => []
  | f+1, n =>
    if n < 10 then [Char.ofNat (48 + n)]
    else natDigitsAux f (n / 10) ++ [Char.ofNat (48 + n % 10)]

/-- Decimal rendering of a natural number. -/
def natToStr (n : Nat) : GStr := natDigitsAux (n + 1) n

/-- Rendering of the numeric triple, as produced by fmt.Sprintf with %d.%d.%d. -/
def renderTriple (major minor patch : Nat) : GStr :=
  natToStr major ++ [Char.ofNat 46] ++ natToStr minor ++ [Char.ofNat 46] ++ natToStr patch

/-- Model of semver.Version.String: canonical major.minor.patch with the raw
prerelease and metadata reattached. -/
def vString (v : Version) : GStr :=
  renderTriple v.major v.minor v.patch
    ++ (if v.preRaw = [] then [] else Char.ofNat 45 :: v.preRaw)
    ++ (if v.metaRaw = [] then [] else Char.ofNat 43 :: v.metaRaw)

/-- Model of semver.NewVersion applied to a numeric fmt.Sprintf triple, as done
throughout the search routines: no prerelease, no metadata, original equal to
the rendered triple. -/
def mkNumVer (major minor patch : Nat) : Version :=
  { major := major, minor := minor, patch := patch,
    preRaw := [], metaRaw := [], original := renderTriple major minor patch }

/-- Go strconv.ParseInt base 10 on a candidate prerelease identifier:
optional sign followed by at least one digit. -/
def parseDigitsAcc : GStr → Nat → Option Nat
  | [], acc => some acc
  | c :: rest, acc =>
    if c.isDigit then parseDigitsAcc rest (acc * 10 + (c.toNat - 48)) else none

/-- Digit-only string to a natural number; none when empty or not all digits. -/
def parseDigits : GStr → Option Nat
  | [] => none
  | s => parseDigitsAcc s 0

/-- Model of strconv.ParseInt(s, 10, 64) restricted to what prerelease
identifiers can contain (an optional leading minus sign). -/
def goParseInt (s : GStr) : Option Int :=
  match s with
  | c :: rest =>
    if c = Char.ofNat 45 then (parseDigits rest).map (fun n => -(n : Int))
    else (parseDigits s).map (fun n => (n : Int))
  | [] => none

/-- Lexicographic (byte-wise) strict order on Go strings. -/
def goStrLt : GStr → GStr → Bool
  | [], [] => false
  | [], _ :: _ => true
  | _ :: _, [] => false
  | c :: cs, d :: ds =>
    if c.toNat < d.toNat then true
    else if d.toNat < c.toNat then false
    else goStrLt cs ds

/-- Split a Go string at every occurrence of a single character. -/
def splitOnCharAux (sep : Char) : GStr → GStr → List GStr
  | [], cur => [cur.reverse]
  | c :: rest, cur =>
    if c = sep then cur.reverse :: splitOnCharAux sep rest []
    else splitOnCharAux sep rest (c :: cur)

/-- Model of strings.Split with a one-character separator. -/
def splitOnChar (s : GStr) (sep : Char) : List GStr := splitOnCharAux sep s []

/-- Model of Masterminds comparePrePart: compare one prerelease identifier. -/
def comparePrePart (s o : GStr) : Int :=
  if s = o then 0
  else if s = [] then (if o ≠ [] then -1 else 1)
  else if o = [] then 1
  else
    match goParseInt o, goParseInt s with
    | none, none => if goStrLt o s then 1 else -1
    | none, some _ => -1
    | some _, none => 1
    | some oi, some si => if si > oi then 1 else -1

/-- One step of Masterminds comparePrerelease: walk both identifier lists,
padding the shorter one with empty identifiers. -/
def comparePreList : List GStr → List GStr → Int
  | [], [] => 0
  | s :: ss, [] =>
    let d := comparePrePart s []
    if d ≠ 0 then d else comparePreList ss []
  | [], o :: os =>
    let d := comparePrePart [] o
    if d ≠ 0 then d else comparePreList [] os
  | s :: ss, o :: os =>
    let d := comparePrePart s o
    if d ≠ 0 then d else comparePreList ss os

/-- Model of Masterminds comparePrerelease on the raw prerelease strings. -/
def comparePrerelease (v o : GStr) : Int :=
  comparePreList (splitOnChar v (Char.ofNat 46)) (splitOnChar o (Char.ofNat 46))

/-- Compare two natural numbers into the Go convention -1 / 0 / 1. -/
def cmpNat (a b : Nat) : Int :=
  if a < b then -1 else if b < a then 1 else 0

/-- Model of semver.Version.Compare: numeric triple, then prerelease
precedence; build metadata is ignored. -/
def vcomp (v o : Version) : Int :=
  let d := cmpNat v.major o.major
  if d ≠ 0 then d else
  let d := cmpNat v.minor o.minor
  if d ≠ 0 then d else
  let d := cmpNat v.patch o.patch
  if d ≠ 0 then d else
  if v.preRaw = [] ∧ o.preRaw = [] then 0
  else if v.preRaw = [] then 1
  else if o.preRaw = [] then -1
  else comparePrerelease v.preRaw o.preRaw

/-- Model of semver.Version.GreaterThan. -/
def vGreaterThan (v o : Version) : Bool := vcomp v o > 0

/-- Model of semver.Version.LessThan. -/
def vLessThan (v o : Version) : Bool := vcomp v o < 0

/-- Model of semver.Version.Equal (metadata-insensitive). -/
def vEqual (v o : Version) : Bool := vcomp v o = 0

/-! ## Model of github.com/Masterminds/semver/v3: constraints -/

/-- Comparator operators appearing in Masterminds constraints as used by the
repository (the != comparator, wildcards and hyphen ranges are not modelled). -/
inductive Cop where
  | eq | gt | lt | ge | le | tilde
deriving DecidableEq, Repr

/-- One parsed comparator: operator, version, which of minor/patch were
written explicitly (Masterminds dirty flags), and the original token text. -/
structure Comp where
  op : Cop
  cver : Version
  minorSpec : Bool := true
  patchSpec : Bool := true
  corig : GStr := []
deriving DecidableEq, Repr

/-- One AND-conjunction of comparators. -/
abbrev CGroup := List Comp

/-- Model of semver.Constraints: an OR-list of AND-conjunctions. -/
abbrev Constraints := List CGroup

/-- Masterminds tilde check (constraintTilde): at least the pinned version,
same major, and same minor when the minor was written explicitly;
a fully written ~0.0.0 accepts everything at or above 0.0.0. -/
def tildeCheck (v : Version) (c : Comp) : Bool :=
  if vLessThan v c.cver then false
  else if c.cver.major = 0 ∧ c.cver.minor = 0 ∧ c.cver.patch = 0
          ∧ c.minorSpec ∧ c.patchSpec then true
  else if v.major ≠ c.cver.major then false
  else if v.minor ≠ c.cver.minor ∧ c.minorSpec then false
  else true

/-- Model of one Masterminds comparator check, including the prerelease gate:
a version carrying a prerelease only matches a comparator whose version also
carries one. -/
def checkComp (v : Version) (c : Comp) : Bool :=
  if c.cver.preRaw = [] ∧ v.preRaw ≠ [] then false
  else
    match c.op with
    | .eq => if c.minorSpec ∧ c.patchSpec then vEqual v c.cver else tildeCheck v c
    | .ge => vcomp v c.cver ≥ 0
    | .gt =>
      if c.minorSpec ∧ c.patchSpec then vcomp v c.cver > 0
      else if v.major > c.cver.major then true
      else if v.major < c.cver.major then false
      else if ¬ c.minorSpec then false
      else v.minor > c.cver.minor
    | .lt => vcomp v c.cver < 0
    | .le =>
      if c.minorSpec ∧ c.patchSpec then vcomp v c.cver ≤ 0
      else if v.major > c.cver.major then false
      else if v.major = c.cver.major ∧ v.minor > c.cver.minor ∧ c.minorSpec then false
      else true
    | .tilde => tildeCheck v c

/-- Model of semver.Constraints.Check: some OR-group has all its comparators
satisfied. -/
def check (cs : Constraints) (v : Version) : Bool :=
  cs.any (fun g => g.all (checkComp v))

/-! ## Bounded simulation space constants (src/unnamed/part_004) -/

def MAX_MAJOR : Nat := 20
def MAX_MINOR : Nat := 50
def MAX_PATCH : Nat := 50

/-- Strategy enum (src/unnamed/part_004). -/
inductive Strategy where
  | dynamic | exact | range
deriving DecidableEq, Repr

/-! ## Range boundary finder (src/pkg/version/utils.go, findHighestVersionInRange
and findLowestVersionInRange).  Go while-loops become fuelled recursion; every
loop halves an interval of width at most 51, so fuel 64 is never exhausted. -/

/-- Go binary-search loop maximizing an accepted index:
on success record the index and move left up; on failure move right down. -/
def binMax (test : Int → Bool) : Nat → Int → Int → Int → Int
  | 0, _, _, best => best
  | f+1, left, right, best =>
    if left ≤ right then
      let mid := (left + right) / 2
      if test mid then binMax test f (mid + 1) right mid
      else binMax test f left (mid - 1) best
    else best

/-- Go binary-search loop minimizing an accepted index:
on success record the index and move right down; on failure move left up. -/
def binMin (test : Int → Bool) : Nat → Int → Int → Int → Int
  | 0, _, _, best => best
  | f+1, left, right, best =>
    if left ≤ right then
      let mid := (left + right) / 2
      if test mid then binMin test f left (mid - 1) mid
      else binMin test f (mid + 1) right best
    else best

/-- Patch stage of findHighestVersionInRange (utils.go lines 197-243),
entered once a major and minor have been fixed. -/
def fhPatchStage (c : Constraints) (highestVer : Option Version)
    (maxMajor maxMinor : Nat) : Option Version :=
  let maxPatch : Int :=
    match [MAX_PATCH, MAX_PATCH / 2, MAX_PATCH / 4].find?
        (fun p => check c (mkNumVer maxMajor maxMinor p)) with
    | some p => (p : Int)
    | none => binMax (fun p => check c (mkNumVer maxMajor maxMinor p.toNat))
        64 0 (MAX_PATCH : Int) (-1)
  if maxPatch == (-1 : Int) then
    if check c (mkNumVer maxMajor maxMinor 0) then
      let finalVer := mkNumVer maxMajor maxMinor 0
      match highestVer with
      | some hv => if vGreaterThan hv finalVer then some hv else some finalVer
      | none => some finalVer
    else highestVer
  else
    let finalVer := mkNumVer maxMajor maxMinor maxPatch.toNat
    match highestVer with
    | some hv => if vGreaterThan hv finalVer then some hv else some finalVer
    | none => some finalVer

/-- Minor-and-patch stages of findHighestVersionInRange (utils.go lines 151-243),
entered once a major has been fixed. -/
def fhMinorStage (c : Constraints) (highestVer : Option Version)
    (maxMajor : Nat) : Option Version :=
  let maxMinor : Int :=
    match [MAX_MINOR, MAX_MINOR / 2, MAX_MINOR / 4].find?
        (fun m => check c (mkNumVer maxMajor m MAX_PATCH)) with
    | some m => (m : Int)
    | none => binMax (fun m => check c (mkNumVer maxMajor m.toNat MAX_PATCH))
        64 0 (MAX_MINOR : Int) (-1)
  if maxMinor == (-1 : Int) then
    if check c (mkNumVer maxMajor 0 MAX_PATCH) then
      fhPatchStage c highestVer maxMajor 0
    else if check c (mkNumVer maxMajor 0 0) then some (mkNumVer maxMajor 0 0)
    else highestVer
  else fhPatchStage c highestVer maxMajor maxMinor.toNat

/-- Model of findHighestVersionInRange (utils.go lines 97-244): strategic
points, binary search on the major with minor/patch pinned to the maximum,
fallback probe of X.0.0 from the top, then minor and patch stages. -/
def findHighestVersionInRange (oc : Option Constraints) : Option Version :=
  match oc with
  | none => none
  | some c =>
    let highestVer :=
      ([(MAX_MAJOR, MAX_MINOR, MAX_PATCH),
        (MAX_MAJOR / 2, MAX_MINOR / 2, MAX_PATCH / 2),
        (MAX_MAJOR / 4, MAX_MINOR / 4, MAX_PATCH / 4)].map
          (fun p => mkNumVer p.1 p.2.1 p.2.2)).find? (check c)
    let maxMajor : Int :=
      binMax (fun M => check c (mkNumVer M.toNat MAX_MINOR MAX_PATCH))
        64 0 (MAX_MAJOR : Int) (-1)
    let maxMajor : Int :=
      if maxMajor == (-1 : Int) then
        match ((List.range (MAX_MAJOR + 1)).reverse).find?
            (fun M => check c (mkNumVer M 0 0)) with
        | some M => (M : Int)
        | none => -1
      else maxMajor
    if maxMajor == (-1 : Int) then highestVer
    else fhMinorStage c highestVer maxMajor.toNat

/-- Full scan of the bounded cube used by findLowestVersionInRange when its
major binary search finds nothing (utils.go lines 273-288). -/
def cubeScanLowest (c : Constraints) : Option Version :=
  ((List.range (MAX_MAJOR + 1)).flatMap (fun M =>
    (List.range (MAX_MINOR + 1)).flatMap (fun m =>
      (List.range (MAX_PATCH + 1)).map (fun p => mkNumVer M m p)))).foldl
    (fun acc tv =>
      if check c tv then
        match acc with
        | none => some tv
        | some lv => if vLessThan tv lv then some tv else some lv
      else acc) none

/-- Model of findLowestVersionInRange (utils.go lines 247-359). -/
def findLowestVersionInRange (oc : Option Constraints) : Option Version :=
  match oc with
  | none => none
  | some c =>
    let minMajor : Int :=
      binMin (fun M => check c (mkNumVer M.toNat 0 0)) 64 0 (MAX_MAJOR : Int) (-1)
    if minMajor == (-1 : Int) then cubeScanLowest c
    else
      let minMinor : Int :=
        binMin (fun m => check c (mkNumVer minMajor.toNat m.toNat 0))
          64 0 (MAX_MINOR : Int) (-1)
      let contMinor : Option Nat :=
        if minMinor == (-1 : Int) then
          if check c (mkNumVer minMajor.toNat 0 0) then some 0 else none
        else some minMinor.toNat
      match contMinor with
      | none =>
        if check c (mkNumVer (minMajor.toNat + 1) 0 0) then
          some (mkNumVer (minMajor.toNat + 1) 0 0)
        else none
      | some minMinor =>
        let minPatch : Int :=
          binMin (fun p => check c (mkNumVer minMajor.toNat minMinor p.toNat))
            64 0 (MAX_PATCH : Int) (-1)
        if minPatch == (-1 : Int) then
          if check c (mkNumVer minMajor.toNat minMinor 0) then
            some (mkNumVer minMajor.toNat minMinor 0)
          else if check c (mkNumVer minMajor.toNat (minMinor + 1) 0) then
            some (mkNumVer minMajor.toNat (minMinor + 1) 0)
          else none
        else some (mkNumVer minMajor.toNat minMinor minPatch.toNat)

/-! ## Range overlap detector (src/unnamed/part_006 searchMinorRange,
searchPatchVersions, searchPatchVersionsLinear, linearSearchOverlap;
src/pkg/version/search.go searchMinorRangeLinear;
src/pkg/version/utils.go RangesOverlap).
The memoization caches of the Go code are pure and call-local, so they are
modelled by direct recomputation. -/

/-- Integers from lo to hi inclusive (empty when hi < lo), for Go for-loops. -/
def intRangeList (lo hi : Int) : List Int :=
  (List.range (hi + 1 - lo).toNat).map (fun i => lo + (i : Int))

/-- Both constraints accept the probe version. -/
def bothCheck (a b : Constraints) (major minor patch : Nat) : Bool :=
  let tv := mkNumVer major minor patch
  check a tv ∧ check b tv

/-- Binary-search loop of searchPatchVersions (part_006 lines 153-190),
with its neighbour probes and direction rule. -/
def spvLoop (a b : Constraints) (major minor : Nat) (aMaxValid bMaxValid : Bool) :
    Nat → Int → Int → Bool
  | 0, _, _ => false
  | f+1, left, right =>
    if left ≤ right then
      let patch := (left + right) / 2
      let aValid := check a (mkNumVer major minor patch.toNat)
      let bValid := check b (mkNumVer major minor patch.toNat)
      if aValid ∧ bValid then true
      else
        let next :=
          if ¬ aValid ∧ ¬ bValid then (patch + 1, right)
          else if (aValid ∧ ¬ bValid ∧ bMaxValid) ∨ (¬ aValid ∧ bValid ∧ aMaxValid) then
            (patch + 1, right)
          else (left, patch - 1)
        if patch > 0 ∧ bothCheck a b major minor (patch - 1).toNat then true
        else if patch < (MAX_PATCH : Int) ∧ bothCheck a b major minor (patch + 1).toNat then true
        else spvLoop a b major minor aMaxValid bMaxValid f next.1 next.2
    else false

/-- Model of searchPatchVersions (part_006 lines 109-193). -/
def searchPatchVersions (a b : Constraints) (major minor : Nat) : Bool :=
  if [0, MAX_PATCH / 4, MAX_PATCH / 2, (MAX_PATCH * 3) / 4, MAX_PATCH].any
      (fun p => bothCheck a b major minor p) then true
  else
    let aMinValid := check a (mkNumVer major minor 0)
    let aMaxValid := check a (mkNumVer major minor MAX_PATCH)
    let bMinValid := check b (mkNumVer major minor 0)
    let bMaxValid := check b (mkNumVer major minor MAX_PATCH)
    if (¬ aMinValid ∧ ¬ aMaxValid) ∨ (¬ bMinValid ∧ ¬ bMaxValid) then false
    else
      let left : Int := if ¬ aMinValid ∧ ¬ bMinValid then ((MAX_PATCH : Int) / 4) else 0
      let right : Int := if ¬ aMaxValid ∧ ¬ bMaxValid then (((MAX_PATCH : Int) * 3) / 4) else (MAX_PATCH : Int)
      spvLoop a b major minor aMaxValid bMaxValid 64 left right

/-- Binary-search loop of searchMinorRange (part_006 lines 45-103); the
recursive split of the source is received through the rec2 callback, which is
instantiated with the surrounding function at smaller fuel. -/
def smrLoop (a b : Constraints) (major start stop : Int) (rec2 : Int → Int → Bool) :
    Nat → Int → Int → Bool
  | 0, _, _ => false
  | f+1, left, right =>
    if left ≤ right then
      let minor := (left + right) / 2
      if [0, MAX_PATCH / 4, MAX_PATCH / 2, (MAX_PATCH * 3) / 4, MAX_PATCH].any
          (fun p => bothCheck a b major.toNat minor.toNat p) then true
      else
        let aMin := check a (mkNumVer major.toNat minor.toNat 0)
        let aMax := check a (mkNumVer major.toNat minor.toNat MAX_PATCH)
        let bMin := check b (mkNumVer major.toNat minor.toNat 0)
        let bMax := check b (mkNumVer major.toNat minor.toNat MAX_PATCH)
        if (aMin ∧ bMin) ∨ (aMax ∧ bMax) then true
        else if ((aMin ∨ aMax) ∧ (bMin ∨ bMax))
                ∧ searchPatchVersions a b major.toNat minor.toNat then true
        else if ¬ aMax ∧ ¬ bMax then smrLoop a b major start stop rec2 f left (minor - 1)
        else if ¬ aMin ∧ ¬ bMin then smrLoop a b major start stop rec2 f (minor + 1) right
        else
          if minor > start ∧ ((aMin ∨ aMax) ∧ (bMin ∨ bMax)) ∧ rec2 start (minor - 1) then true
          else if minor < stop ∧ ((aMin ∨ aMax) ∧ (bMin ∨ bMax)) ∧ rec2 (minor + 1) stop then true
          else false
    else false

/-- Model of searchMinorRange (part_006 lines 10-106). -/
def searchMinorRange (a b : Constraints) (major : Int) : Nat → Int → Int → Bool
  | 0, _, _ => false
  | f+1, start, stop =>
    let tstart := mkNumVer major.toNat start.toNat 0
    let tend := mkNumVer major.toNat stop.toNat MAX_PATCH
    if (check a tstart ∧ check b tstart) ∨ (check a tend ∧ check b tend) then true
    else if [((start + stop) / 2, (MAX_PATCH : Int) / 2),
             (start + (stop - start) / 4, (MAX_PATCH : Int) / 4),
             (stop - (stop - start) / 4, (MAX_PATCH : Int) * 3 / 4)].any
        (fun pr => bothCheck a b major.toNat pr.1.toNat pr.2.toNat) then true
    else
      let aS := check a tstart
      let aE := check a tend
      let bS := check b tstart
      let bE := check b tend
      if (¬ aS ∧ ¬ aE) ∨ (¬ bS ∧ ¬ bE) then false
      else smrLoop a b major start stop (fun s2 e2 => searchMinorRange a b major f s2 e2)
        64 start stop

/-- Binary-search loop of searchPatchVersionsLinear (part_006 lines 264-310):
probe, neighbour probes, direction rule, and a final small scan once the
interval is narrow. -/
def spvlLoop (a b : Constraints) (major minor : Nat) (aMaxValid bMaxValid : Bool) :
    Nat → Int → Int → Bool
  | 0, _, _ => false
  | f+1, left, right =>
    if left ≤ right then
      let patch := (left + right) / 2
      let aValid := check a (mkNumVer major minor patch.toNat)
      let bValid := check b (mkNumVer major minor patch.toNat)
      if aValid ∧ bValid then true
      else if patch > 0 ∧ bothCheck a b major minor (patch - 1).toNat then true
      else if patch < (MAX_PATCH : Int) ∧ bothCheck a b major minor (patch + 1).toNat then true
      else
        let next :=
          if ¬ aValid ∧ ¬ bValid then (patch + 1, right)
          else if (aValid ∧ ¬ bValid ∧ bMaxValid) ∨ (¬ aValid ∧ bValid ∧ aMaxValid) then
            (patch + 1, right)
          else (left, patch - 1)
        if next.2 - next.1 ≤ 5 then
          (intRangeList next.1 next.2).any (fun p => bothCheck a b major minor p.toNat)
        else spvlLoop a b major minor aMaxValid bMaxValid f next.1 next.2
    else false

/-- Model of searchPatchVersionsLinear (part_006 lines 196-313); the version
cache is pure memoization and is modelled by direct recomputation. -/
def searchPatchVersionsLinear (a b : Constraints) (major minor : Nat) : Bool :=
  if [0, MAX_PATCH, MAX_PATCH / 2, MAX_PATCH / 4, MAX_PATCH * 3 / 4,
      MAX_PATCH / 8, MAX_PATCH * 7 / 8].any
      (fun p => bothCheck a b major minor p) then true
  else
    let aMinValid := check a (mkNumVer major minor 0)
    let aMaxValid := check a (mkNumVer major minor MAX_PATCH)
    let bMinValid := check b (mkNumVer major minor 0)
    let bMaxValid := check b (mkNumVer major minor MAX_PATCH)
    if (¬ aMinValid ∧ ¬ aMaxValid) ∨ (¬ bMinValid ∧ ¬ bMaxValid) then false
    else
      let left : Int := if ¬ aMinValid ∧ ¬ bMinValid then ((MAX_PATCH : Int) / 4) else 0
      let right : Int := if ¬ aMaxValid ∧ ¬ bMaxValid then ((MAX_PATCH : Int) * 3 / 4) else (MAX_PATCH : Int)
      spvlLoop a b major minor aMaxValid bMaxValid 64 left right

/-- Binary-search loop of searchMinorRangeLinear (search.go lines 80-154). -/
def smrlLoop (a b : Constraints) (major : Nat) (start stop : Int)
    (aEndValid bEndValid : Bool) : Nat → Int → Int → Bool
  | 0, _, _ => false
  | f+1, left, right =>
    if left ≤ right then
      let minor := (left + right) / 2
      let patchPoints := [0, MAX_PATCH / 4, MAX_PATCH / 2, MAX_PATCH * 3 / 4, MAX_PATCH]
      if patchPoints.any (fun p => bothCheck a b major minor.toNat p) then true
      else
        let aValid := patchPoints.any (fun p => check a (mkNumVer major minor.toNat p))
        let bValid := patchPoints.any (fun p => check b (mkNumVer major minor.toNat p))
        if aValid ∧ bValid ∧ searchPatchVersionsLinear a b major minor.toNat then true
        else if minor > start ∧ searchPatchVersionsLinear a b major (minor - 1).toNat then true
        else if minor < stop ∧ searchPatchVersionsLinear a b major (minor + 1).toNat then true
        else
          let next :=
            if ¬ aValid ∧ ¬ bValid then (minor + 1, right)
            else if (aValid ∧ ¬ bValid ∧ bEndValid) ∨ (¬ aValid ∧ bValid ∧ aEndValid) then
              (minor + 1, right)
            else (left, minor - 1)
          if next.2 - next.1 ≤ 5 then
            (intRangeList next.1 next.2).any
              (fun m => searchPatchVersionsLinear a b major m.toNat)
          else smrlLoop a b major start stop aEndValid bEndValid f next.1 next.2
    else false

/-- Model of searchMinorRangeLinear (src/pkg/version/search.go lines 10-157);
the version cache is pure memoization and is modelled by direct
recomputation. -/
def searchMinorRangeLinear (a b : Constraints) (major : Nat) (start stop : Int) : Bool :=
  if [(start, (0 : Int)), (stop, (MAX_PATCH : Int)),
      ((start + stop) / 2, (MAX_PATCH : Int) / 2),
      (start + (stop - start) / 4, (MAX_PATCH : Int) / 4),
      (stop - (stop - start) / 4, (MAX_PATCH : Int) * 3 / 4),
      (start + (stop - start) / 8, (MAX_PATCH : Int) / 8),
      (stop - (stop - start) / 8, (MAX_PATCH : Int) * 7 / 8)].any
      (fun pr => bothCheck a b major pr.1.toNat pr.2.toNat) then true
  else
    let aStartValid := check a (mkNumVer major start.toNat 0)
    let aEndValid := check a (mkNumVer major stop.toNat MAX_PATCH)
    let bStartValid := check b (mkNumVer major start.toNat 0)
    let bEndValid := check b (mkNumVer major stop.toNat MAX_PATCH)
    if (¬ aStartValid ∧ ¬ aEndValid) ∨ (¬ bStartValid ∧ ¬ bEndValid) then false
    else
      let left := if ¬ aStartValid ∧ ¬ bStartValid then start + (stop - start) / 4 else start
      let right := if ¬ aEndValid ∧ ¬ bEndValid then stop - (stop - start) / 4 else stop
      smrlLoop a b major start stop aEndValid bEndValid 64 left right

/-- Small binary-search loop over patch used twice by linearSearchOverlap
(part_006 lines 397-413 and 462-478): both accepted stops with true, both
rejected moves up, otherwise down. -/
def lsoPatchLoop (a b : Constraints) (major minor : Nat) : Nat → Int → Int → Bool
  | 0, _, _ => false
  | f+1, left, right =>
    if left ≤ right then
      let patch := (left + right) / 2
      let aValid := check a (mkNumVer major minor patch.toNat)
      let bValid := check b (mkNumVer major minor patch.toNat)
      if aValid ∧ bValid then true
      else if ¬ aValid ∧ ¬ bValid then lsoPatchLoop a b major minor f (patch + 1) right
      else lsoPatchLoop a b major minor f left (patch - 1)
    else false

/-- Binary major loop of linearSearchOverlap (part_006 lines 334-390),
returning either a found overlap or the accumulated per-side major windows. -/
def lsoMajorLoop (a b : Constraints) :
    Nat → Int → Int → Int → Int → Int → Int → (Bool × Int × Int × Int × Int)
  | 0, _, _, aMn, aMx, bMn, bMx => (false, aMn, aMx, bMn, bMx)
  | f+1, left, right, aMn, aMx, bMn, bMx =>
    if left ≤ right then
      let major := (left + right) / 2
      let aMinOk := check a (mkNumVer major.toNat 0 0)
      let aMaxOk := check a (mkNumVer major.toNat MAX_MINOR MAX_PATCH)
      let bMinOk := check b (mkNumVer major.toNat 0 0)
      let bMaxOk := check b (mkNumVer major.toNat MAX_MINOR MAX_PATCH)
      if (aMinOk ∧ bMinOk) ∨ (aMaxOk ∧ bMaxOk) then (true, aMn, aMx, bMn, bMx)
      else
        let aMn2 := if aMinOk ∨ aMaxOk then (if aMn == (-1 : Int) then major else aMn) else aMn
        let aMx2 := if aMinOk ∨ aMaxOk then major else aMx
        let bMn2 := if bMinOk ∨ bMaxOk then (if bMn == (-1 : Int) then major else bMn) else bMn
        let bMx2 := if bMinOk ∨ bMaxOk then major else bMx
        if ¬ aMaxOk ∧ ¬ bMaxOk then
          lsoMajorLoop a b f left (major - 1) aMn2 aMx2 bMn2 bMx2
        else if ¬ aMinOk ∧ ¬ bMinOk then
          lsoMajorLoop a b f (major + 1) right aMn2 aMx2 bMn2 bMx2
        else
          if major > 0 ∧ bothCheck a b (major - 1).toNat (MAX_MINOR / 2) (MAX_PATCH / 2) then
            (true, aMn2, aMx2, bMn2, bMx2)
          else if major < (MAX_MAJOR : Int)
              ∧ bothCheck a b (major + 1).toNat (MAX_MINOR / 2) (MAX_PATCH / 2) then
            (true, aMn2, aMx2, bMn2, bMx2)
          else (false, aMn2, aMx2, bMn2, bMx2)
    else (false, aMn, aMx, bMn, bMx)

/-- Inner minor loop of the per-major sweep of linearSearchOverlap
(part_006 lines 425-455). -/
def lsoMinorLoop (a b : Constraints) (major : Nat) : Nat → Int → Int → Bool
  | 0, _, _ => false
  | f+1, left, right =>
    if left ≤ right then
      let minor := (left + right) / 2
      let aValid := check a (mkNumVer major minor.toNat (MAX_PATCH / 2))
      let bValid := check b (mkNumVer major minor.toNat (MAX_PATCH / 2))
      if aValid ∧ bValid then true
      else if (aValid ∨ bValid) ∧ searchPatchVersionsLinear a b major minor.toNat then true
      else if ¬ aValid ∧ ¬ bValid then lsoMinorLoop a b major f (minor + 1) right
      else
        if minor > 0 ∧ searchMinorRangeLinear a b major 0 (minor - 1) then true
        else if minor < (MAX_MINOR : Int)
            ∧ searchMinorRangeLinear a b major (minor + 1) (MAX_MINOR : Int) then true
        else false
    else false

/-- Model of linearSearchOverlap (part_006 lines 316-483). -/
def linearSearchOverlap (a b : Constraints) : Bool :=
  if [((0:Nat), (0:Nat), (0:Nat)),
      (MAX_MAJOR, MAX_MINOR, MAX_PATCH),
      (MAX_MAJOR / 2, MAX_MINOR / 2, MAX_PATCH / 2),
      (MAX_MAJOR / 4, MAX_MINOR / 4, MAX_PATCH / 4),
      (MAX_MAJOR * 3 / 4, MAX_MINOR * 3 / 4, MAX_PATCH * 3 / 4)].any
      (fun p => bothCheck a b p.1 p.2.1 p.2.2) then true
  else
    match lsoMajorLoop a b 64 0 (MAX_MAJOR : Int) (-1) (-1) (-1) (-1) with
    | (true, _, _, _, _) => true
    | (false, aMinMajor, aMaxMajor, bMinMajor, bMaxMajor) =>
      if aMinMajor == (-1 : Int) ∨ bMinMajor == (-1 : Int) then
        (List.range (min 5 MAX_MAJOR + 1)).any (fun M =>
          (List.range (min 10 MAX_MINOR + 1)).any (fun m =>
            lsoPatchLoop a b M m 64 0 ((min 10 MAX_PATCH : Nat) : Int)))
      else
        let start := max 0 (min aMinMajor bMinMajor)
        let stop := min (MAX_MAJOR : Int) (max aMaxMajor bMaxMajor)
        if (intRangeList start stop).any (fun M =>
            lsoMinorLoop a b M.toNat 64 0 (MAX_MINOR : Int)) then true
        else
          (intRangeList (max 0 (start - 2)) (min (MAX_MAJOR : Int) (stop + 2))).any (fun M =>
            (List.range (min 5 MAX_MINOR + 1)).any (fun m =>
              lsoPatchLoop a b M.toNat m 64 0 ((min 5 MAX_PATCH : Nat) : Int)))

/-- Inner binary minor loop of the per-major sweep of RangesOverlap
(utils.go lines 451-484).  The final branch of the if-chain in the source is
unreachable (its guard is the negation of the first two guards) and has no
counterpart here. -/
def roMinorLoop (a b : Constraints) (major : Nat) : Nat → Int → Int → Bool
  | 0, _, _ => false
  | f+1, left, right =>
    if left ≤ right then
      let minor := (left + right) / 2
      let aValid := check a (mkNumVer major minor.toNat 0)
      let bValid := check b (mkNumVer major minor.toNat 0)
      if aValid ∧ bValid then true
      else if ¬ aValid ∧ ¬ bValid then roMinorLoop a b major f (minor + 1) right
      else
        if searchPatchVersions a b major minor.toNat then true
        else roMinorLoop a b major f left (minor - 1)
    else false

/-- Per-major body of the strategic sweep of RangesOverlap
(utils.go lines 440-485). -/
def roMajorBody (a b : Constraints) (major : Nat) : Bool :=
  if [0, MAX_MINOR / 4, MAX_MINOR / 2, (MAX_MINOR * 3) / 4, MAX_MINOR].any
      (fun m => bothCheck a b major m 0) then true
  else roMinorLoop a b major 64 0 (MAX_MINOR : Int)

/-- Model of RangesOverlap (utils.go lines 362-504). -/
def RangesOverlap (oa ob : Option Constraints) : Bool :=
  match oa, ob with
  | some a, some b =>
    match findLowestVersionInRange (some a), findHighestVersionInRange (some a),
          findLowestVersionInRange (some b), findHighestVersionInRange (some b) with
    | some aMin, some aMax, some bMin, some bMax =>
      if vLessThan aMax bMin ∨ vLessThan bMax aMin then false
      else if check a bMin ∨ check a bMax ∨ check b aMin ∨ check b aMax then true
      else
        let midFound :=
          if vLessThan aMin bMax ∧ vLessThan bMin aMax then
            if [((aMin.major + bMax.major) / 2, (aMin.minor + bMax.minor) / 2,
                  (aMin.patch + bMax.patch) / 2),
                (aMin.major, bMax.minor, (aMin.patch + bMax.patch) / 2),
                (bMin.major, aMax.minor, (aMin.patch + bMax.patch) / 2)].any
                (fun p => bothCheck a b p.1 p.2.1 p.2.2) then true
            else if bothCheck a b ((aMin.major * 3 + bMax.major) / 4)
                ((aMin.minor * 3 + bMax.minor) / 4) ((aMin.patch * 3 + bMax.patch) / 4) then true
            else bothCheck a b ((aMin.major + bMax.major * 3) / 4)
                ((aMin.minor + bMax.minor * 3) / 4) ((aMin.patch + bMax.patch * 3) / 4)
          else false
        if midFound then true
        else
          let start : Int := max 0 (min (aMin.major : Int) (bMin.major : Int))
          let stop : Int := min (MAX_MAJOR : Int) (max (aMax.major : Int) (bMax.major : Int))
          if (intRangeList start stop).any (fun M => roMajorBody a b M.toNat) then true
          else
            [start - 2, start, stop, stop + 2].any (fun M =>
              if M < 0 ∨ M > (MAX_MAJOR : Int) then false
              else
                (List.range (min 5 MAX_MINOR + 1)).any (fun m =>
                  (List.range (min 5 MAX_PATCH + 1)).any (fun p =>
                    bothCheck a b M.toNat m p)))
    | _, _, _, _ => linearSearchOverlap a b
  | _, _ => false

/-! ## Go string primitives used by the parsing and normalization code -/

/-- Model of strings.HasPrefix. -/
def startsWith : GStr → GStr → Bool
  | _, [] => true
  | [], _ :: _ => false
  | c :: cs, d :: ds => c = d ∧ startsWith cs ds

/-- Model of strings.Contains. -/
def containsSub : GStr → GStr → Bool
  | s, pat =>
    if startsWith s pat then true
    else match s with
      | [] => false
      | _ :: rest => containsSub rest pat

/-- Model of strings.ReplaceAll with a nonempty pattern (auxiliary, fuelled;
each step consumes at least one character, so fuel length-plus-one suffices). -/
def replaceAllF (pat rep : GStr) : Nat → GStr → GStr
  | 0, s => s
  | f+1, s =>
    match s with
    | [] => []
    | c :: rest =>
      if startsWith s pat then rep ++ replaceAllF pat rep f (s.drop pat.length)
      else c :: replaceAllF pat rep f rest

/-- Model of strings.ReplaceAll with a nonempty pattern. -/
def replaceAll (s pat rep : GStr) : GStr := replaceAllF pat rep (s.length + 1) s

/-- Model of strings.Split (auxiliary, fuelled). -/
def splitOnStrF (pat : GStr) : Nat → GStr → GStr → List GStr
  | 0, cur, s => [cur.reverse ++ s]
  | f+1, cur, s =>
    if startsWith s pat then cur.reverse :: splitOnStrF pat f [] (s.drop pat.length)
    else match s with
      | [] => [cur.reverse]
      | c :: rest => splitOnStrF pat f (c :: cur) rest

/-- Model of strings.Split with a nonempty separator. -/
def splitOnStr (s pat : GStr) : List GStr := splitOnStrF pat (s.length + 1) [] s

/-- Model of strings.Join. -/
def goJoin (sep : GStr) : List GStr → GStr
  | [] => []
  | [x] => x
  | x :: xs => x ++ sep ++ goJoin sep xs

/-- Drop leading spaces. -/
def trimLeftSpaces : GStr → GStr
  | c :: rest => if c = ' ' then trimLeftSpaces rest else c :: rest
  | [] => []

/-- Model of strings.TrimSpace.  The repository only ever handles the plain
space character, so other unicode whitespace is not modelled. -/
def trimSpace (s : GStr) : GStr :=
  ((trimLeftSpaces s.reverse).reverse |> trimLeftSpaces)

/-- Model of strings.TrimLeft with a cutset. -/
def trimLeftCutset : GStr → GStr → GStr
  | c :: rest, cutset => if cutset.contains c then trimLeftCutset rest cutset else c :: rest
  | [], _ => []

/-! ## Model of semver.NewVersion and semver.NewConstraint -/

/-- Characters allowed in a prerelease or metadata identifier. -/
def isIdentChar (c : Char) : Bool := c.isAlpha ∨ c.isDigit ∨ c = '-'

/-- Value of a nonempty digit string. -/
def digitsToNat (ds : GStr) : Nat := ds.foldl (fun acc c => acc * 10 + (c.toNat - 48)) 0

/-- Leading digit run as a number, with the rest; none when there is no digit. -/
def parseNumPart (s : GStr) : Option (Nat × GStr) :=
  let sp := s.span Char.isDigit
  if sp.1 = [] then none else some (digitsToNat sp.1, sp.2)

/-- Dot-separated nonempty identifiers over the prerelease alphabet
(the grammar of the Masterminds prerelease and metadata sections). -/
def validIdentSeq (s : GStr) : Bool :=
  (splitOnChar s '.').all (fun part => part ≠ [] ∧ part.all isIdentChar)

/-- The numeric core of the lenient Masterminds version grammar: one to three
dot-separated components; absent components default to zero, and the returned
flags record whether minor and patch were written (the Masterminds dirty
flags used by constraint checking). -/
def parseVersionCore (s : GStr) : Option (Nat × Nat × Nat × Bool × Bool × GStr) :=
  match parseNumPart s with
  | none => none
  | some (maj, r1) =>
    match r1 with
    | '.' :: r2 =>
      match parseNumPart r2 with
      | none => none
      | some (mnr, r3) =>
        match r3 with
        | '.' :: r4 =>
          match parseNumPart r4 with
          | none => none
          | some (pat, r5) => some (maj, mnr, pat, true, true, r5)
        | _ => some (maj, mnr, 0, true, false, r3)
    | _ => some (maj, 0, 0, false, false, r1)

/-- Optional prerelease and metadata tail of a version literal. -/
def parseVersionTail (r : GStr) : Option (GStr × GStr) :=
  match r with
  | [] => some ([], [])
  | '-' :: r2 =>
    let sp := r2.span (fun c => isIdentChar c ∨ c = '.')
    if validIdentSeq sp.1 then
      match sp.2 with
      | [] => some (sp.1, [])
      | '+' :: r4 => if validIdentSeq r4 then some (sp.1, r4) else none
      | _ => none
    else none
  | '+' :: r4 => if validIdentSeq r4 then some ([], r4) else none
  | _ => none

/-- Model of semver.NewVersion: optional lowercase v prefix, one to three
numeric components, optional prerelease and metadata, nothing else; the input
is kept as Original. -/
def parseVersion (s : GStr) : Option Version :=
  let body := match s with
    | c :: rest => if c = 'v' then rest else s
    | [] => []
  match parseVersionCore body with
  | none => none
  | some (maj, mnr, pat, _, _, r) =>
    match parseVersionTail r with
    | none => none
    | some pm =>
      some { major := maj, minor := mnr, patch := pat,
             preRaw := pm.1, metaRaw := pm.2, original := s }

/-- Comparator token of the Masterminds constraint grammar, with its text.
A missing operator means equality (which Masterminds treats as tilde when
components are missing).  The ^ and != operators and wildcard components are
outside this model. -/
def readCompOp (s : GStr) : Cop × GStr × GStr :=
  match s with
  | '>' :: '=' :: r => (.ge, gs ">=", r)
  | '=' :: '>' :: r => (.ge, gs "=>", r)
  | '<' :: '=' :: r => (.le, gs "<=", r)
  | '=' :: '<' :: r => (.le, gs "=<", r)
  | '~' :: '>' :: r => (.tilde, gs "~>", r)
  | '>' :: r => (.gt, gs ">", r)
  | '<' :: r => (.lt, gs "<", r)
  | '~' :: r => (.tilde, gs "~", r)
  | '=' :: r => (.eq, gs "=", r)
  | r => (.eq, [], r)

/-- Characters a constraint version token may contain. -/
def isVerTokChar (c : Char) : Bool :=
  c.isAlpha ∨ c.isDigit ∨ c = '.' ∨ c = '-' ∨ c = '+'

/-- One constraint version token: like a version literal, remembering which
components were written. -/
def parseConsVersion (tok : GStr) : Option (Version × Bool × Bool) :=
  let body := match tok with
    | c :: rest => if c = 'v' then rest else tok
    | [] => []
  match parseVersionCore body with
  | none => none
  | some (maj, mnr, pat, mnSpec, ptSpec, r) =>
    match parseVersionTail r with
    | none => none
    | some pm =>
      some ({ major := maj, minor := mnr, patch := pat,
              preRaw := pm.1, metaRaw := pm.2, original := tok }, mnSpec, ptSpec)

/-- One AND-group of a constraint: comparators separated by spaces or commas
(auxiliary, fuelled; every step consumes at least one character). -/
def parseGroupF : Nat → GStr → Option (List Comp)
  | 0, _ => none
  | _, [] => some []
  | f+1, c :: rest =>
    if c = ' ' ∨ c = ',' then parseGroupF f rest
    else
      let op := readCompOp (c :: rest)
      let afterSp := trimLeftSpaces op.2.2
      let sp := afterSp.span isVerTokChar
      if sp.1 = [] then none
      else
        match parseConsVersion sp.1 with
        | none => none
        | some vmp =>
          match parseGroupF f sp.2 with
          | none => none
          | some comps =>
            some ({ op := op.1, cver := vmp.1, minorSpec := vmp.2.1,
                    patchSpec := vmp.2.2, corig := op.2.1 ++ sp.1 } :: comps)

/-- Model of semver.NewConstraint: split on the OR separator, parse each group,
reject empty groups.  Hyphen ranges, wildcards, ^ and != are not modelled. -/
def parseConstraint (s : GStr) : Option Constraints :=
  (splitOnStr s (gs "||")).mapM (fun p =>
    match parseGroupF (p.length + 1) p with
    | some comps => if comps = [] then none else some comps
    | none => none)

/-- Model of semver.Constraints.String: comparator tokens joined by spaces
inside a group, groups joined by the OR separator. -/
def cString (c : Constraints) : GStr :=
  goJoin (gs " || ") (c.map (fun g => goJoin (gs " ") (g.map (·.corig))))

/-! ## VersionTerm parser (src/unnamed/part_003) -/

/-- Model of buildRangeFromTildePart (part_003 lines 56-78). -/
def buildRangeFromTildePart (version : GStr) : GStr :=
  let version := trimSpace version
  if version = [] then gs "~>MISSING"
  else if (splitOnChar version '.').length > 3 then gs "~>INVALID"
  else
    match parseVersion version with
    | none => gs ">=0.0.0, <1.0.0"
    | some ver =>
      gs ">=" ++ natToStr ver.major ++ gs "." ++ natToStr ver.minor ++ gs "."
        ++ natToStr ver.patch ++ gs ", <" ++ natToStr (ver.major + 1) ++ gs ".0.0"

/-- Model of ExpandTerraformTildeArrow (part_003 lines 31-54). -/
def ExpandTerraformTildeArrow (version : GStr) : GStr :=
  if version = [] then version
  else if ¬ containsSub version (gs "~>") then version
  else
    goJoin (gs " || ") ((splitOnStr version (gs "||")).map (fun part =>
      let part := trimSpace part
      if startsWith part (gs "~>") then
        buildRangeFromTildePart (trimSpace (part.drop 2))
      else part))

/-- Model of ParseVersionOrRange (part_003 lines 12-28): the Go quadruple
(isVersion, version, constraints, error). -/
def ParseVersionOrRange (input : GStr) :
    Except GStr (Bool × Option Version × Option Constraints) :=
  if input = [] then .error (gs "empty version input")
  else
    match parseVersion input with
    | some v => .ok (true, some v, none)
    | none =>
      let tfInput := ExpandTerraformTildeArrow input
      match parseConstraint tfInput with
      | some c => .ok (false, none, some c)
      | none => .error (gs "improper constraint: " ++ tfInput)

/-! ## Normalizer (src/pkg/version/utils.go lines 28-59) -/

/-- The collapse loop of the normalizer: replace double spaces until none is
left (fuelled; every effective pass shortens the string). -/
def collapseSpaces : Nat → GStr → GStr
  | 0, s => s
  | f+1, s =>
    if containsSub s (gs "  ") then collapseSpaces f (replaceAll s (gs "  ") (gs " "))
    else s

/-- The OR-free branch of normalizeVersionString (utils.go lines 38-58). -/
def normalizeCore (version : GStr) : GStr :=
  let v := replaceAll version (gs " ") []
  let v := replaceAll v (gs ">=") (gs ">= ")
  let v := replaceAll v (gs "<=") (gs "<= ")
  let v := replaceAll v (gs ">") (gs "> ")
  let v := replaceAll v (gs "<") (gs "< ")
  let v := replaceAll v (gs ",") (gs ", ")
  let v := replaceAll v (gs "> =") (gs ">=")
  let v := replaceAll v (gs "< =") (gs "<=")
  let v := trimSpace v
  collapseSpaces (v.length + 1) v

/-- Model of normalizeVersionString (utils.go lines 28-59): strings containing
the OR separator are split, each part is normalized recursively, and the parts
are rejoined (fuelled; split parts are strictly shorter than the input). -/
def normalizeVersionStringF : Nat → GStr → GStr
  | 0, v => v
  | f+1, v =>
    if containsSub v (gs "||") then
      goJoin (gs " || ")
        ((splitOnStr v (gs "||")).map (fun p => normalizeVersionStringF f (trimSpace p)))
    else normalizeCore v

/-- Model of normalizeVersionString (utils.go lines 28-59). -/
def normalizeVersionString (v : GStr) : GStr := normalizeVersionStringF (v.length + 1) v

/-! ## Strategy engine (src/pkg/version/strategy.go).  Go passes nullable
version and constraint pointers; they are modelled as options.  Where the Go
code dereferences a pointer unconditionally, every call site guarantees it is
non-nil, and the model uses a default that is unreachable on those paths. -/

/-- Model of isPre100Version (strategy.go lines 11-13). -/
def isPre100Version (v : Option Version) : Bool :=
  match v with
  | some v => v.major = 0
  | none => false

/-- Model of compareVersions (strategy.go lines 16-51).  The pre-1.0/pre-1.0
and post-1.0/post-1.0 branches of the source both reduce to the standard
comparison, as written here. -/
def compareVersions (v1 v2 : Option Version) : Int :=
  match v1, v2 with
  | some v1, some v2 =>
    let v1Pre := v1.major = 0
    let v2Pre := v2.major = 0
    if v1Pre ≠ v2Pre then (if v1Pre then -1 else 1)
    else if vEqual v1 v2 then 0
    else if vGreaterThan v1 v2 then 1
    else -1
  | _, _ => 0

/-- Model of preserveVersionMetadata (strategy.go lines 192-200). -/
def preserveVersionMetadata (v : Option Version) : GStr :=
  match v with
  | none => []
  | some v => if v.major = 0 then v.original else vString v

/-- GreaterThan through option pointers (false when either is absent;
the Go call sites guard for non-nil before dereferencing). -/
def ogt (a b : Option Version) : Bool :=
  match a, b with
  | some x, some y => vGreaterThan x y
  | _, _ => false

/-- Check through option pointers (false when either is absent). -/
def ocheck (oc : Option Constraints) (ov : Option Version) : Bool :=
  match oc, ov with
  | some c, some v => check c v
  | _, _ => false

/-- Original of an optional version (empty when absent). -/
def origOf (ov : Option Version) : GStr := (ov.map (fun v => v.original)).getD []

/-- Major of an optional version (zero when absent). -/
def vmajorO (ov : Option Version) : Nat := (ov.map (fun v => v.major)).getD 0

/-- The probe loop of getMinVersionFromConstraint (strategy.go lines 572-583):
step 0.minor.0 upward while the constraint rejects, jumping to 1.0.0 after
0.99.0 and stopping at any major above zero (at most 102 steps). -/
def gmvLoop (c : Constraints) : Nat → Version → Version
  | 0, v => v
  | f+1, v =>
    if check c v then v
    else if v.major = 0 then
      if v.minor = 99 then gmvLoop c f (mkNumVer 1 0 0)
      else gmvLoop c f (mkNumVer 0 (v.minor + 1) 0)
    else v

/-- Model of getMinVersionFromConstraint (strategy.go lines 565-598); its
error result is always nil in the source, so the model returns the version. -/
def getMinVersionFromConstraint (c : Constraints) : Version :=
  let v := gmvLoop c 128 (mkNumVer 0 0 0)
  match (splitOnChar (cString c) ',').findSome? (fun part =>
      let part := trimSpace part
      if containsSub part (vString v) then parseVersion (trimLeftCutset part (gs ">=<"))
      else none) with
  | some exactV => exactV
  | none => v

/-- Model of handleComplexRange (strategy.go lines 266-316). -/
def handleComplexRange (version : GStr) : Except GStr GStr :=
  match (splitOnStr version (gs "||")).findSome? (fun part =>
      match parseConstraint (trimSpace part) with
      | none => none
      | some c =>
        let v := getMinVersionFromConstraint c
        if isPre100Version (some v) then
          match (splitOnChar (trimSpace part) ',').findSome? (fun rangePart =>
              let rangePart := trimSpace rangePart
              if containsSub rangePart (vString v) then
                parseVersion (trimLeftCutset rangePart (gs ">=<"))
              else none) with
          | some exactV => some exactV.original
          | none => some v.original
        else none) with
  | some res => .ok res
  | none =>
    match parseConstraint version with
    | none => .error (gs "improper constraint: " ++ version)
    | some c =>
      let v := getMinVersionFromConstraint c
      if ¬ isPre100Version (some v) then .ok (normalizeVersionString version)
      else .ok v.original

/-- Exact-version tail of ConvertToRangeVersion (strategy.go lines 347-359):
parse as an exact version, keep pre-1.0 versions exact, convert others to the
next-major range. -/
def convertExactToRange (version : GStr) : Except GStr GStr :=
  match parseVersion version with
  | none => .error (gs "invalid version: " ++ version)
  | some v =>
    if v.major = 0 then .ok v.original
    else
      .ok (normalizeVersionString
        (gs ">=" ++ vString v ++ gs ",<" ++ natToStr (v.major + 1) ++ gs ".0.0"))

/-- Model of ConvertToRangeVersion (strategy.go lines 318-360). -/
def ConvertToRangeVersion (version : GStr) : Except GStr GStr :=
  if containsSub version (gs "||") ∨ containsSub version (gs "~>") then
    handleComplexRange version
  else
    match parseConstraint version with
    | some c =>
      if containsSub version (gs ">") then
        match findLowestVersionInRange (some c) with
        | some mv =>
          if mv.major = 0 then
            match (splitOnChar version ',').findSome? (fun part =>
                let part := trimSpace part
                if containsSub part (vString mv) then
                  parseVersion (trimLeftCutset part (gs ">=<"))
                else none) with
            | some v => .ok v.original
            | none => .ok mv.original
          else .ok (normalizeVersionString version)
        | none => .ok (normalizeVersionString version)
      else convertExactToRange version
    | none => convertExactToRange version

/-- Model of DecideVersionOrRange (strategy.go lines 54-141). -/
def DecideVersionOrRange (oldIsVer : Bool) (oldVer : Option Version)
    (oldRange : Option Constraints) (oldInput : GStr)
    (newIsVer : Bool) (newVer : Option Version)
    (newRange : Option Constraints) (newInput : GStr) : GStr :=
  if oldIsVer ∧ newIsVer then
    if compareVersions oldVer newVer > 0 then origOf oldVer else origOf newVer
  else if oldIsVer ∧ ¬ newIsVer then
    let maxVer := findHighestVersionInRange newRange
    if maxVer.isSome ∧ compareVersions oldVer maxVer > 0 then origOf oldVer
    else if ocheck newRange oldVer then origOf oldVer
    else
      let minVer := findLowestVersionInRange newRange
      if minVer.isSome ∧ compareVersions oldVer minVer > 0 then origOf oldVer
      else newInput
  else if ¬ oldIsVer ∧ newIsVer then
    if oldRange.isSome then
      let minVer := findLowestVersionInRange oldRange
      if minVer.isSome ∧ compareVersions minVer newVer > 0 then oldInput
      else
        let maxVer := findHighestVersionInRange oldRange
        if maxVer.isSome ∧ compareVersions maxVer newVer > 0 then oldInput
        else if ocheck oldRange newVer then oldInput
        else origOf newVer
    else origOf newVer
  else
    if oldRange.isNone ∨ newRange.isNone then newInput
    else
      let oldMaxVer := findHighestVersionInRange oldRange
      let newMaxVer := findHighestVersionInRange newRange
      let oldMinVer := findLowestVersionInRange oldRange
      let newMinVer := findLowestVersionInRange newRange
      if oldMinVer.isSome ∧ newMinVer.isSome ∧ compareVersions oldMinVer newMinVer > 0 then
        oldInput
      else if oldMaxVer.isSome ∧ newMaxVer.isSome ∧ compareVersions oldMaxVer newMaxVer > 0 then
        oldInput
      else if RangesOverlap oldRange newRange then oldInput
      else newInput

/-- Model of ApplyRangeStrategy (strategy.go lines 362-443). -/
def ApplyRangeStrategy (targetVersion existingVersion : GStr) : Except GStr GStr :=
  if existingVersion = [] then
    ConvertToRangeVersion (ExpandTerraformTildeArrow targetVersion)
  else
    let expandedTarget := ExpandTerraformTildeArrow targetVersion
    let expandedExisting := ExpandTerraformTildeArrow existingVersion
    match ParseVersionOrRange expandedTarget with
    | .error e => .error (gs "invalid target version: " ++ e)
    | .ok (targetIsVer, targetVer, targetRange) =>
      match ParseVersionOrRange expandedExisting with
      | .error _ => ConvertToRangeVersion expandedTarget
      | .ok (existingIsVer, existingVer, existingRange) =>
        if targetIsVer ∧ isPre100Version targetVer then
          if existingIsVer ∧ existingVer.isSome ∧ ogt existingVer targetVer then
            .ok (preserveVersionMetadata existingVer)
          else .ok (preserveVersionMetadata targetVer)
        else if (¬ targetIsVer ∧ targetRange.isSome)
            ∧ isPre100Version (findLowestVersionInRange targetRange) then
          if existingIsVer ∧ existingVer.isSome
              ∧ ogt existingVer (findLowestVersionInRange targetRange) then
            .ok (preserveVersionMetadata existingVer)
          else .ok (preserveVersionMetadata (findLowestVersionInRange targetRange))
        else if (existingIsVer ∧ existingVer.isSome ∧ isPre100Version existingVer)
            ∧ (targetIsVer ∧ targetVer.isSome) ∧ ogt existingVer targetVer then
          .ok (preserveVersionMetadata existingVer)
        else if (existingIsVer ∧ existingVer.isSome ∧ isPre100Version existingVer)
            ∧ (¬ targetIsVer ∧ targetRange.isSome)
            ∧ (findLowestVersionInRange targetRange).isSome
            ∧ ogt existingVer (findLowestVersionInRange targetRange) then
          .ok (preserveVersionMetadata existingVer)
        else if (¬ existingIsVer ∧ existingRange.isSome ∧ targetIsVer ∧ targetVer.isSome)
            ∧ ocheck existingRange targetVer then
          .ok (normalizeVersionString expandedExisting)
        else if (¬ existingIsVer ∧ existingRange.isSome ∧ targetIsVer ∧ targetVer.isSome)
            ∧ (findLowestVersionInRange existingRange).isSome
            ∧ ogt (findLowestVersionInRange existingRange) targetVer then
          .ok (normalizeVersionString expandedExisting)
        else if ¬ targetIsVer ∧ targetRange.isSome then
          .ok (normalizeVersionString expandedTarget)
        else ConvertToRangeVersion expandedTarget

/-- Model of ApplyDynamicStrategy (strategy.go lines 445-562). -/
def ApplyDynamicStrategy (targetVersion existingVersion : GStr) : Except GStr GStr :=
  if existingVersion = [] then
    match parseConstraint targetVersion with
    | some c =>
      if containsSub targetVersion (gs ">") then
        let minVer := findLowestVersionInRange (some c)
        if isPre100Version minVer then .ok (preserveVersionMetadata minVer)
        else .ok targetVersion
      else .ok targetVersion
    | none => .ok targetVersion
  else
    let expandedTarget := ExpandTerraformTildeArrow targetVersion
    let expandedExisting := ExpandTerraformTildeArrow existingVersion
    match ParseVersionOrRange expandedTarget with
    | .error e => .error (gs "invalid target version: " ++ e)
    | .ok (targetIsVer, targetVer, targetRange) =>
      match ParseVersionOrRange expandedExisting with
      | .error _ => .ok targetVersion
      | .ok (existingIsVer, existingVer, existingRange) =>
        if targetIsVer ∧ isPre100Version targetVer then
          if existingIsVer ∧ existingVer.isSome ∧ ogt existingVer targetVer then
            .ok (preserveVersionMetadata existingVer)
          else if (¬ existingIsVer ∧ existingRange.isSome)
              ∧ (findLowestVersionInRange existingRange).isSome
              ∧ isPre100Version (findLowestVersionInRange existingRange)
              ∧ ogt (findLowestVersionInRange existingRange) targetVer then
            .ok (normalizeVersionString expandedExisting)
          else .ok (preserveVersionMetadata targetVer)
        else if (¬ targetIsVer ∧ targetRange.isSome)
            ∧ isPre100Version (findLowestVersionInRange targetRange) then
          if (¬ existingIsVer ∧ existingRange.isSome)
              ∧ (findLowestVersionInRange existingRange).isSome
              ∧ ogt (findLowestVersionInRange existingRange)
                  (findLowestVersionInRange targetRange)
              ∧ isPre100Version (findLowestVersionInRange existingRange) then
            .ok (normalizeVersionString expandedExisting)
          else if existingIsVer ∧ existingVer.isSome
              ∧ ogt existingVer (findLowestVersionInRange targetRange) then
            .ok (preserveVersionMetadata existingVer)
          else .ok (preserveVersionMetadata (findLowestVersionInRange targetRange))
        else if (existingIsVer ∧ existingVer.isSome ∧ isPre100Version existingVer)
            ∧ (targetIsVer ∧ targetVer.isSome) ∧ ogt existingVer targetVer then
          .ok (preserveVersionMetadata existingVer)
        else if (existingIsVer ∧ existingVer.isSome ∧ isPre100Version existingVer)
            ∧ (¬ targetIsVer ∧ targetRange.isSome)
            ∧ (findLowestVersionInRange targetRange).isSome
            ∧ ogt existingVer (findLowestVersionInRange targetRange) then
          .ok (preserveVersionMetadata existingVer)
        else if (¬ existingIsVer ∧ existingRange.isSome)
            ∧ isPre100Version (findLowestVersionInRange existingRange)
            ∧ ((targetIsVer ∧ targetVer.isSome ∧ vmajorO targetVer > 0)
               ∨ ((¬ targetIsVer ∧ targetRange.isSome)
                  ∧ (findLowestVersionInRange targetRange).isSome
                  ∧ vmajorO (findLowestVersionInRange targetRange) > 0)) then
          .ok (normalizeVersionString expandedExisting)
        else
          let st :=
            if (¬ existingIsVer ∧ existingRange.isSome ∧ targetIsVer)
                ∧ ¬ ocheck existingRange targetVer then
              let newTargetStr :=
                gs ">=" ++ natToStr (vmajorO targetVer) ++ gs ", <"
                  ++ natToStr (vmajorO targetVer + 1)
              (false, parseConstraint newTargetStr, newTargetStr)
            else (targetIsVer, targetRange, expandedTarget)
          .ok (normalizeVersionString
            (DecideVersionOrRange existingIsVer existingVer existingRange expandedExisting
              st.1 targetVer st.2.1 st.2.2))

/-- Model of ApplyVersionStrategy (strategy.go lines 144-179).  Go represents
strategies as strings with a default branch returning the target unchanged;
the claims only concern the three declared strategies, modelled as an enum. -/
def ApplyVersionStrategy (strategy : Strategy) (targetVersion existingVersion : GStr) :
    Except GStr GStr :=
  match strategy with
  | .exact =>
    match parseVersion targetVersion with
    | none => .error (gs "exact strategy requires an exact version, got: " ++ targetVersion)
    | some targetVer =>
      if existingVersion = [] then .ok (vString targetVer)
      else
        match parseVersion existingVersion with
        | none => .ok (vString targetVer)
        | some existingVer =>
          if vGreaterThan existingVer targetVer then .ok (vString existingVer)
          else .ok (vString targetVer)
  | .range => ApplyRangeStrategy targetVersion existingVersion
  | .dynamic => ApplyDynamicStrategy targetVersion existingVersion

/-! ## Verification vocabulary (statement helpers, not source embedding) -/

/-- A string free of the vertical bar character.  Every string accepted by the
exact-version grammar or by one AND-group of the range grammar is of this
form. -/
def noBar (s : GStr) : Bool := s.all (fun c => ¬ (c = '|'))

/-- Every OR-part of the string is free of stray vertical bars.  This holds
for every string accepted by the version or range grammars directly; the
tilde-arrow fallback can accept strings outside this set. -/
def BarsOK (s : GStr) : Bool := (splitOnStr s (gs "||")).all noBar

/-- Spaces removed; used to state that normalization never changes comparator
or version token content. -/
def stripSpaces (s : GStr) : GStr := s.filter (fun c => ¬ (c = ' '))

/-- Right trim by spaces, used to reason about trimSpace. -/
def rtrimSpaces (s : GStr) : GStr := (trimLeftSpaces s.reverse).reverse

/-- The shape of the second and later fields produced by splitting a
space-bar-bar-space join on the bar-bar separator: each inner field keeps a
space on both sides, the last only on the left. -/
def tailParts : List GStr → List GStr
  | [] => []
  | [q] => [' ' :: q]
  | q :: rest => ((' ' :: q) ++ [' ']) :: tailParts rest

/-! # Claims -/

set_option maxRecDepth 8192

/-! ## String lemmas shared by several proofs -/

theorem trimLeftSpaces_append (xs ys : GStr) :
    trimLeftSpaces (xs ++ ys)
      = if trimLeftSpaces xs = [] then trimLeftSpaces ys
        else trimLeftSpaces xs ++ ys := by
  induction xs with
  | nil => simp [trimLeftSpaces]
  | cons c rest ih =>
    by_cases hc : c = ' '
    · simpa [trimLeftSpaces, hc] using ih
    · simp [trimLeftSpaces, hc]

theorem trimLeftSpaces_idem (s : GStr) :
    trimLeftSpaces (trimLeftSpaces s) = trimLeftSpaces s := by
  induction s with
  | nil => rfl
  | cons c rest ih =>
    by_cases hc : c = ' '
    · simpa [trimLeftSpaces, hc] using ih
    · simp [trimLeftSpaces, hc]

theorem trimLeftSpaces_is_drop (s : GStr) : ∃ n, trimLeftSpaces s = s.drop n := by
  induction s with
  | nil => exact ⟨0, rfl⟩
  | cons c rest ih =>
    by_cases hc : c = ' '
    · obtain ⟨n, hn⟩ := ih
      exact ⟨n + 1, by simpa [trimLeftSpaces, hc] using hn⟩
    · exact ⟨0, by simp [trimLeftSpaces, hc]⟩

theorem trimLeftSpaces_length_le (s : GStr) :
    (trimLeftSpaces s).length ≤ s.length := by
  obtain ⟨n, hn⟩ := trimLeftSpaces_is_drop s
  rw [hn]
  simp

theorem rtrimSpaces_idem (s : GStr) : rtrimSpaces (rtrimSpaces s) = rtrimSpaces s := by
  simp [rtrimSpaces, trimLeftSpaces_idem]

theorem trimSpace_eq (s : GStr) : trimSpace s = trimLeftSpaces (rtrimSpaces s) := rfl

theorem trimSpace_rtrim (s : GStr) : trimSpace (rtrimSpaces s) = trimSpace s := by
  rw [trimSpace_eq, trimSpace_eq, rtrimSpaces_idem]

theorem rtrimSpaces_cons_of_ne (c : Char) (hc : ¬ c = ' ') (l : GStr) :
    rtrimSpaces (c :: l) = c :: rtrimSpaces l := by
  unfold rtrimSpaces
  rw [List.reverse_cons, trimLeftSpaces_append]
  by_cases h : trimLeftSpaces l.reverse = []
  · simp [h, trimLeftSpaces, hc]
  · simp [h]

theorem trimSpace_cons_of_ne (c : Char) (hc : ¬ c = ' ') (l : GStr) :
    trimSpace (c :: l) = c :: rtrimSpaces l := by
  rw [trimSpace_eq, rtrimSpaces_cons_of_ne c hc l]
  simp [trimLeftSpaces, hc]

theorem rtrimSpaces_eq_self_of_trim (t : GStr) (h : trimSpace t = t) :
    rtrimSpaces t = t := by
  obtain ⟨n, hn⟩ := trimLeftSpaces_is_drop (rtrimSpaces t)
  have hfix : (rtrimSpaces t).drop n = t := by rw [← hn, ← trimSpace_eq, h]
  have hlen1 : (rtrimSpaces t).length ≤ t.length := by
    have := trimLeftSpaces_length_le t.reverse
    simpa [rtrimSpaces] using this
  have hdlen : ((rtrimSpaces t).drop n).length = (rtrimSpaces t).length - n :=
    List.length_drop n (rtrimSpaces t)
  rw [hfix] at hdlen
  have hn0 : n = 0 ∨ (rtrimSpaces t).length = 0 := by omega
  rcases hn0 with hn0 | hn0
  · rw [hn0, List.drop_zero] at hfix
    exact hfix
  · have hnil : rtrimSpaces t = [] := List.length_eq_zero.mp hn0
    rw [hnil] at hfix
    simp at hfix
    rw [hnil, ← hfix]

theorem startsWith_eq_append (s pat : GStr) (h : startsWith s pat = true) :
    pat ++ s.drop pat.length = s := by
  induction pat generalizing s with
  | nil => simp
  | cons p ps ih =>
    cases s with
    | nil => simp [startsWith] at h
    | cons c cs =>
      have h2 : c = p ∧ startsWith cs ps = true := by
        simpa [startsWith] using h
      simp [h2.1, ih cs h2.2]

theorem splitOnStr_single (s pat : GStr) (h : containsSub s pat = false) :
    splitOnStr s pat = [s] := by
  suffices haux : ∀ (s2 : GStr) (cur : GStr) (f : Nat), s2.length < f →
      containsSub s2 pat = false → splitOnStrF pat f cur s2 = [cur.reverse ++ s2] by
    simpa using haux s [] (s.length + 1) (by omega) h
  intro s2
  induction s2 with
  | nil =>
    intro cur f hf hc
    cases f with
    | zero => omega
    | succ g =>
      have hsw : startsWith [] pat = false := by
        by_contra hne
        simp only [Bool.not_eq_false] at hne
        simp [containsSub, hne] at hc
      simp [splitOnStrF, hsw]
  | cons c rest ih =>
    intro cur f hf hc
    cases f with
    | zero => simp at hf
    | succ g =>
      have hsw : startsWith (c :: rest) pat = false := by
        by_contra hne
        simp only [Bool.not_eq_false] at hne
        simp [containsSub, hne] at hc
      have hrest : containsSub rest pat = false := by
        have := hc
        simp only [containsSub, hsw] at this
        simpa using this
      have := ih (c :: cur) g (by simpa using Nat.lt_of_succ_lt_succ hf) hrest
      simp [splitOnStrF, hsw, this]

theorem parseVersion_tilde (l : GStr) : parseVersion ('~' :: l) = none := by
  have hspan : List.span Char.isDigit ('~' :: l) = ([], '~' :: l) := by
    rw [List.span_eq_take_drop]
    simp [show Char.isDigit '~' = false by decide]
  have hcore : parseVersionCore ('~' :: l) = none := by
    simp [parseVersionCore, parseNumPart, hspan]
  have hbody : (if ('~' : Char) = 'v' then l else '~' :: l) = '~' :: l := by
    rw [if_neg (by decide)]
  simp [parseVersion, hbody, hcore]

/-- C1: backward-compatibility protection does NOT hold universally.  Code
bug witness: under the Dynamic strategy, existing term ">=2.0.0" (lowest
satisfiable version 2.0.0) and target range "<19.0.0" (whose lowest found
version 0.0.0 is pre-1.0) resolve to the exact "0.0.0" — a term whose lowest
satisfiable version is strictly below the existing term's lowest, because the
pre-1.0 range collapse only checks exact existing versions for the
keep-existing rule. -/
theorem c1_dynamic_downgrades_existing_range :
    ApplyVersionStrategy .dynamic (gs "<19.0.0") (gs ">=2.0.0") = .ok (gs "0.0.0")
    ∧ ParseVersionOrRange (gs "0.0.0") = .ok (true, some (mkNumVer 0 0 0), none)
    ∧ findLowestVersionInRange (parseConstraint (gs ">=2.0.0")) = some (mkNumVer 2 0 0)
    ∧ compareVersions (some (mkNumVer 0 0 0)) (some (mkNumVer 2 0 0)) < 0 := by
  refine ⟨rfl, rfl, rfl, by decide⟩

/-- C2: overlap detection is NOT complete over the bounded space.  Code bug
witness: the constraints ">=10.0.0, <11.0.0" and
">=15.0.0, <16.0.0 || >=10.2.3, <10.2.4" share the version 10.2.3 (inside the
bounded space), yet RangesOverlap answers false: the boundary finder reports
the second constraint's lowest as 15.0.0, missing its 10.2.x branch, so the
interval disjointness fast path fires. -/
theorem c2_overlap_missed_inside_bounds :
    RangesOverlap (parseConstraint (gs ">=10.0.0, <11.0.0"))
        (parseConstraint (gs ">=15.0.0, <16.0.0 || >=10.2.3, <10.2.4")) = false
    ∧ ocheck (parseConstraint (gs ">=10.0.0, <11.0.0")) (some (mkNumVer 10 2 3)) = true
    ∧ ocheck (parseConstraint (gs ">=15.0.0, <16.0.0 || >=10.2.3, <10.2.4"))
        (some (mkNumVer 10 2 3)) = true
    ∧ 10 ≤ MAX_MAJOR ∧ 2 ≤ MAX_MINOR ∧ 3 ≤ MAX_PATCH := by
  refine ⟨rfl, rfl, rfl, by decide, by decide, by decide⟩

/-- C3: the boundary-finder postcondition fails.  Code bug witness: the
constraint "=1.2.3" is satisfiable inside the bounded space (by 1.2.3), yet
findHighestVersionInRange returns nil, because every probe of its search
pins minor/patch to extremes or zero and never tests 1.2.3. -/
theorem c3_highest_none_though_satisfiable :
    findHighestVersionInRange (parseConstraint (gs "=1.2.3")) = none
    ∧ ocheck (parseConstraint (gs "=1.2.3")) (some (mkNumVer 1 2 3)) = true
    ∧ 1 ≤ MAX_MAJOR ∧ 2 ≤ MAX_MINOR ∧ 3 ≤ MAX_PATCH := by
  refine ⟨rfl, rfl, by decide, by decide, by decide⟩

/-- C4: the pre-1.0 collapse does NOT retain a higher existing range.  Code
bug witness: under the Range strategy, target "<20.0.0" has pre-1.0 lowest
found version 0.0.0, and the existing range ">=0.5.0,<0.9.0" only accepts
versions at or above 0.5.0 — the spec says the existing literal must then be
retained — yet the result is the collapsed "0.0.0", because the keep-existing
guard of the collapse only fires for exact existing versions. -/
theorem c4_pre10_collapse_ignores_higher_existing_range :
    ApplyVersionStrategy .range (gs "<20.0.0") (gs ">=0.5.0,<0.9.0") = .ok (gs "0.0.0")
    ∧ findLowestVersionInRange (parseConstraint (gs "<20.0.0")) = some (mkNumVer 0 0 0)
    ∧ ocheck (parseConstraint (gs ">=0.5.0,<0.9.0")) (some (mkNumVer 0 5 0)) = true
    ∧ ocheck (parseConstraint (gs ">=0.5.0,<0.9.0")) (some (mkNumVer 0 0 0)) = false := by
  refine ⟨rfl, rfl, rfl, rfl⟩

/-- C9: RangesOverlap is NOT symmetric.  Code bug witness: for
a = "=17.37.37 || >=19.0.0, <=20.0.0 || >=9.0.0, <10.1.0" and
b = ">17.0.0, <19.0.0 || >20.0.0, <22.0.0" (which genuinely overlap at
17.37.37), RangesOverlap a b is true but RangesOverlap b a is false: the
strategic probes are built asymmetrically from the first argument's lowest
and the second argument's highest bounds. -/
theorem c9_overlap_asymmetric_pair :
    RangesOverlap
        (parseConstraint (gs "=17.37.37 || >=19.0.0, <=20.0.0 || >=9.0.0, <10.1.0"))
        (parseConstraint (gs ">17.0.0, <19.0.0 || >20.0.0, <22.0.0")) = true
    ∧ RangesOverlap
        (parseConstraint (gs ">17.0.0, <19.0.0 || >20.0.0, <22.0.0"))
        (parseConstraint (gs "=17.37.37 || >=19.0.0, <=20.0.0 || >=9.0.0, <10.1.0")) = false
    ∧ ocheck (parseConstraint (gs "=17.37.37 || >=19.0.0, <=20.0.0 || >=9.0.0, <10.1.0"))
        (some (mkNumVer 17 37 37)) = true
    ∧ ocheck (parseConstraint (gs ">17.0.0, <19.0.0 || >20.0.0, <22.0.0"))
        (some (mkNumVer 17 37 37)) = true := by
  refine ⟨rfl, rfl, rfl, rfl⟩

/-- C6 counterexample: an unparseable existing literal is NOT always
equivalent to the empty one.  Under the Dynamic strategy with the pre-1.0
range target ">=0.0.0", the empty existing collapses the target to "0.0.0",
while the unparseable existing "invalid" returns the target unchanged. -/
theorem c6_invalid_existing_not_empty_equivalent :
    ApplyVersionStrategy .dynamic (gs ">=0.0.0") (gs "invalid") = .ok (gs ">=0.0.0")
    ∧ ApplyVersionStrategy .dynamic (gs ">=0.0.0") [] = .ok (gs "0.0.0")
    ∧ ParseVersionOrRange (ExpandTerraformTildeArrow (gs "invalid"))
        = .error (gs "improper constraint: invalid")
    ∧ gs ">=0.0.0" ≠ gs "0.0.0" := by
  refine ⟨rfl, rfl, rfl, by decide⟩

/-- C7 counterexample: with an absent existing value the Dynamic strategy
does NOT apply shorthand expansion.  For the target "~>10" it returns "~>10"
unchanged, not the expanded ">=10.0.0, <11.0.0" the claim requires. -/
theorem c7_dynamic_adopts_target_unexpanded :
    ApplyVersionStrategy .dynamic (gs "~>10") [] = .ok (gs "~>10")
    ∧ ExpandTerraformTildeArrow (gs "~>10") = gs ">=10.0.0, <11.0.0"
    ∧ gs "~>10" ≠ gs ">=10.0.0, <11.0.0" := by
  refine ⟨rfl, rfl, by decide⟩

/-- C8 counterexample: the normalizer is NOT idempotent on every string the
engine parses.  The string "~>3| |x" is accepted by ParseVersionOrRange (the
tilde fallback turns it into ">=0.0.0, <1.0.0"), but normalization maps it to
"~> 3||x" — space removal fuses the stray bars into an OR separator — and a
second normalization pass then splits there, giving "~> 3 || x". -/
theorem c8_normalize_not_idempotent_on_valid :
    ParseVersionOrRange (gs "~>3| |x")
      = .ok (false, none, parseConstraint (gs ">=0.0.0, <1.0.0"))
    ∧ normalizeVersionString (gs "~>3| |x") = gs "~> 3||x"
    ∧ normalizeVersionString (normalizeVersionString (gs "~>3| |x")) = gs "~> 3 || x"
    ∧ gs "~> 3 || x" ≠ gs "~> 3||x" := by
  refine ⟨rfl, rfl, rfl, by decide⟩

/-- Characterization of the empty-existing branch of ApplyDynamicStrategy
(strategy.go lines 446-457): the raw target string is adopted unchanged,
except that a target that parses as a constraint, contains a greater-than
character, and has a pre-1.0 lowest found version is collapsed to that lowest
version. -/
theorem applyDynamic_empty_eq (t : GStr) :
    ApplyDynamicStrategy t [] =
      .ok (if ((parseConstraint t).isSome ∧ containsSub t (gs ">")
              ∧ isPre100Version (findLowestVersionInRange (parseConstraint t)))
           then preserveVersionMetadata (findLowestVersionInRange (parseConstraint t))
           else t) := by
  unfold ApplyDynamicStrategy
  cases h : parseConstraint t with
  | none => simp [h]
  | some c =>
    by_cases hc : containsSub t (gs ">") = true
    · by_cases hp : isPre100Version (findLowestVersionInRange (some c)) = true
      · simp [h, hc, hp]
      · simp [h, hc, hp]
    · simp [h, hc]

/-- C7 (amended): with an absent existing value the Dynamic strategy adopts
the raw target string unchanged — without shorthand expansion — except when
the raw target parses as a constraint, contains a greater-than character, and
its lowest found version is pre-1.0, in which case it returns that lowest
version with metadata preserved. -/
theorem c7_dynamic_empty_existing_behavior (t : GStr) :
    ApplyVersionStrategy .dynamic t [] =
      .ok (if ((parseConstraint t).isSome ∧ containsSub t (gs ">")
              ∧ isPre100Version (findLowestVersionInRange (parseConstraint t)))
           then preserveVersionMetadata (findLowestVersionInRange (parseConstraint t))
           else t) :=
  applyDynamic_empty_eq t

/-- C5: the Exact strategy errors exactly when the target does not parse as
an exact version (ranges are rejected, never coerced); with an exact target,
an absent or unparseable existing value adopts the target, and a parseable
existing value is kept exactly when it is strictly greater. -/
theorem c5_exact_strategy_spec (t e : GStr) :
    (parseVersion t = none →
      ApplyVersionStrategy .exact t e
        = .error (gs "exact strategy requires an exact version, got: " ++ t))
    ∧ (∀ tv, parseVersion t = some tv → (e = [] ∨ parseVersion e = none) →
        ApplyVersionStrategy .exact t e = .ok (vString tv))
    ∧ (∀ tv ev, parseVersion t = some tv → e ≠ [] → parseVersion e = some ev →
        ApplyVersionStrategy .exact t e
          = .ok (if vGreaterThan ev tv then vString ev else vString tv)) := by
  refine ⟨?_, ?_, ?_⟩
  · intro h
    simp [ApplyVersionStrategy, h]
  · intro tv ht he
    rcases he with he | he
    · simp [ApplyVersionStrategy, ht, he]
    · by_cases hee : e = []
      · simp [ApplyVersionStrategy, ht, hee]
      · simp [ApplyVersionStrategy, ht, hee, he]
  · intro tv ev ht he hev
    simp only [ApplyVersionStrategy, ht, if_neg he, hev]
    by_cases hg : vGreaterThan ev tv = true <;> simp [hg]

/-- C5 witness: the three behaviors at concrete inputs. -/
theorem c5_exact_strategy_spec_witness :
    ApplyVersionStrategy .exact (gs ">=2.0.0, <3.0.0") (gs "1.0.0")
        = .error (gs "exact strategy requires an exact version, got: >=2.0.0, <3.0.0")
    ∧ ApplyVersionStrategy .exact (gs "2.0.0") [] = .ok (gs "2.0.0")
    ∧ ApplyVersionStrategy .exact (gs "2.3.0") (gs "2.4.0") = .ok (gs "2.4.0") := by
  refine ⟨?_, ?_, ?_⟩
  · exact ((c5_exact_strategy_spec (gs ">=2.0.0, <3.0.0") (gs "1.0.0")).1 rfl).trans (by rfl)
  · exact ((c5_exact_strategy_spec (gs "2.0.0") []).2.1 (mkNumVer 2 0 0) rfl
      (Or.inl rfl)).trans (by rfl)
  · exact ((c5_exact_strategy_spec (gs "2.3.0") (gs "2.4.0")).2.2 (mkNumVer 2 3 0)
      (mkNumVer 2 4 0) rfl (by decide) rfl).trans (by rfl)

/-- C6 (amended): a non-empty existing literal that parses neither as a
version nor, after shorthand expansion, as a range is treated like the empty
literal under the Exact strategy always, under the Range strategy whenever
the target itself is accepted, and under the Dynamic strategy both calls
succeed adopting the target — they coincide except that a pre-1.0 range
target (one parsing as a constraint, containing a greater-than character,
with pre-1.0 lowest found version) is collapsed by the empty-existing call
but returned unchanged by the invalid-existing call. -/
theorem c6_invalid_existing_amended (t e em : GStr) (he : e ≠ [])
    (hve : parseVersion e = none)
    (hpe : ParseVersionOrRange (ExpandTerraformTildeArrow e) = .error em) :
    ApplyVersionStrategy .exact t e = ApplyVersionStrategy .exact t []
    ∧ (∀ r, ParseVersionOrRange (ExpandTerraformTildeArrow t) = .ok r →
        ApplyVersionStrategy .range t e = ApplyVersionStrategy .range t [])
    ∧ (∀ r, ParseVersionOrRange (ExpandTerraformTildeArrow t) = .ok r →
        ApplyVersionStrategy .dynamic t e = .ok t
        ∧ (¬ ((parseConstraint t).isSome ∧ containsSub t (gs ">")
             ∧ isPre100Version (findLowestVersionInRange (parseConstraint t))) →
           ApplyVersionStrategy .dynamic t e = ApplyVersionStrategy .dynamic t [])) := by
  refine ⟨?_, ?_, ?_⟩
  · cases ht : parseVersion t with
    | none => simp [ApplyVersionStrategy, ht]
    | some tv => simp [ApplyVersionStrategy, ht, he, hve]
  · rintro ⟨b, ov, oc⟩ hr
    show ApplyRangeStrategy t e = ApplyRangeStrategy t []
    unfold ApplyRangeStrategy
    simp [he, hr, hpe]
  · rintro ⟨b, ov, oc⟩ hr
    have hmain : ApplyDynamicStrategy t e = .ok t := by
      unfold ApplyDynamicStrategy
      simp [he, hr, hpe]
    refine ⟨hmain, ?_⟩
    intro hnc
    show ApplyDynamicStrategy t e = ApplyDynamicStrategy t []
    rw [hmain, applyDynamic_empty_eq, if_neg hnc]

/-- C6 witness: the amended equivalences at concrete inputs. -/
theorem c6_invalid_existing_amended_witness :
    ApplyVersionStrategy .exact (gs "2.0.0") (gs "invalid")
        = ApplyVersionStrategy .exact (gs "2.0.0") []
    ∧ ApplyVersionStrategy .range (gs ">=2.0.0") (gs "invalid")
        = ApplyVersionStrategy .range (gs ">=2.0.0") []
    ∧ ApplyVersionStrategy .dynamic (gs ">=2.0.0") (gs "invalid") = .ok (gs ">=2.0.0") := by
  refine ⟨?_, ?_, ?_⟩
  · exact (c6_invalid_existing_amended (gs "2.0.0") (gs "invalid")
      (gs "improper constraint: invalid") (by decide) rfl rfl).1
  · exact (c6_invalid_existing_amended (gs ">=2.0.0") (gs "invalid")
      (gs "improper constraint: invalid") (by decide) rfl rfl).2.1
      (false, none, parseConstraint (gs ">=2.0.0")) rfl
  · exact ((c6_invalid_existing_amended (gs ">=2.0.0") (gs "invalid")
      (gs "improper constraint: invalid") (by decide) rfl rfl).2.2
      (false, none, parseConstraint (gs ">=2.0.0")) rfl).1

/-- C10: the shorthand expansion is total and silently permissive.  Every
trimmed tilde token that is non-empty, has at most three dot-separated
components, and does not parse as a version is turned into the full range
">=0.0.0, <1.0.0"; consequently ExpandTerraformTildeArrow never fails on it
and ParseVersionOrRange accepts the tilde input as that range instead of
reporting a syntax error. -/
theorem c10_tilde_fallback_total (t : GStr)
    (h0 : trimSpace t = t)
    (h1 : t ≠ [])
    (h2 : (splitOnChar t '.').length ≤ 3)
    (h3 : parseVersion t = none)
    (h4 : containsSub t (gs "||") = false) :
    buildRangeFromTildePart t = gs ">=0.0.0, <1.0.0"
    ∧ ExpandTerraformTildeArrow (gs "~>" ++ t) = gs ">=0.0.0, <1.0.0"
    ∧ ParseVersionOrRange (gs "~>" ++ t)
        = .ok (false, none, parseConstraint (gs ">=0.0.0, <1.0.0")) := by
  have hbr : buildRangeFromTildePart t = gs ">=0.0.0, <1.0.0" := by
    simp only [buildRangeFromTildePart, h0, h3]
    rw [if_neg h1, if_neg (by omega)]
  have hsw2 : startsWith ('~' :: '>' :: t) (gs "~>") = true := by
    simp [startsWith, gs]
  have hct : containsSub ('~' :: '>' :: t) (gs "~>") = true := by
    simp [containsSub, hsw2]
  have hb1 : startsWith ('~' :: '>' :: t) (gs "||") = false := by
    simp [startsWith, gs]
  have hb2 : startsWith ('>' :: t) (gs "||") = false := by
    simp [startsWith, gs]
  have h4' : containsSub ('~' :: '>' :: t) (gs "||") = false := by
    simp [containsSub, hb1, hb2, h4]
  have hsplit : splitOnStr ('~' :: '>' :: t) (gs "||") = ['~' :: '>' :: t] :=
    splitOnStr_single _ _ h4'
  have hrt : rtrimSpaces t = t := rtrimSpaces_eq_self_of_trim t h0
  have hpart : trimSpace ('~' :: '>' :: t) = '~' :: '>' :: t := by
    rw [trimSpace_cons_of_ne '~' (by decide) ('>' :: t),
      rtrimSpaces_cons_of_ne '>' (by decide) t, hrt]
  have hexp : ExpandTerraformTildeArrow ('~' :: '>' :: t) = gs ">=0.0.0, <1.0.0" := by
    unfold ExpandTerraformTildeArrow
    rw [if_neg (by simp), if_neg (by simp [hct])]
    rw [hsplit]
    simp only [List.map, hpart, hsw2, if_pos trivial, List.drop, goJoin]
    rw [h0]
    exact hbr
  refine ⟨hbr, hexp, ?_⟩
  show ParseVersionOrRange ('~' :: '>' :: t) = _
  unfold ParseVersionOrRange
  rw [if_neg (by simp), parseVersion_tilde, hexp]
  rfl

/-- C10 witness: the permissive fallback at the token abc. -/
theorem c10_tilde_fallback_total_witness :
    buildRangeFromTildePart (gs "abc") = gs ">=0.0.0, <1.0.0"
    ∧ ExpandTerraformTildeArrow (gs "~>" ++ gs "abc") = gs ">=0.0.0, <1.0.0"
    ∧ ParseVersionOrRange (gs "~>" ++ gs "abc")
        = .ok (false, none, parseConstraint (gs ">=0.0.0, <1.0.0")) :=
  c10_tilde_fallback_total (gs "abc") rfl (by decide) (by decide) rfl rfl

/-! ## Lemmas about the normalizer, towards claim C8 -/

theorem stripSpaces_append (x y : GStr) :
    stripSpaces (x ++ y) = stripSpaces x ++ stripSpaces y := by
  simp [stripSpaces]

theorem stripSpaces_replaceAllF (pat rep : GStr) (hpr : stripSpaces pat = stripSpaces rep) :
    ∀ (f : Nat) (s : GStr), stripSpaces (replaceAllF pat rep f s) = stripSpaces s := by
  intro f
  induction f with
  | zero => intro s; rfl
  | succ g ih =>
    intro s
    cases s with
    | nil => rfl
    | cons c rest =>
      by_cases hsw : startsWith (c :: rest) pat = true
      · have hdec := startsWith_eq_append (c :: rest) pat hsw
        simp only [replaceAllF, hsw, if_true]
        rw [stripSpaces_append, ih, ← hpr]
        conv_rhs => rw [← hdec]
        rw [stripSpaces_append]
      · simp only [replaceAllF, hsw]
        simp only [Bool.false_eq_true, if_false]
        by_cases hc : c = ' '
        · simp [stripSpaces, hc] at ih ⊢
          exact ih rest
        · simp [stripSpaces, hc] at ih ⊢
          exact ih rest

theorem stripSpaces_replaceAll (s pat rep : GStr) (hpr : stripSpaces pat = stripSpaces rep) :
    stripSpaces (replaceAll s pat rep) = stripSpaces s :=
  stripSpaces_replaceAllF pat rep hpr (s.length + 1) s

theorem replaceAll_space_eq_strip :
    ∀ (f : Nat) (s : GStr), s.length < f → replaceAllF (gs " ") [] f s = stripSpaces s := by
  intro f
  induction f with
  | zero => intro s h; omega
  | succ g ih =>
    intro s hlen
    cases s with
    | nil => rfl
    | cons c rest =>
      by_cases hc : c = ' '
      · have hsw : startsWith (c :: rest) (gs " ") = true := by
          simp [startsWith, gs, hc]
        simp only [replaceAllF, hsw, if_true, List.nil_append]
        have : List.drop (gs " ").length (c :: rest) = rest := by rfl
        rw [this, ih rest (by simpa using Nat.lt_of_succ_lt_succ hlen)]
        simp [stripSpaces, hc]
      · have hsw : startsWith (c :: rest) (gs " ") = false := by
          simp [startsWith, gs, hc]
        simp only [replaceAllF, hsw, Bool.false_eq_true, if_false]
        rw [ih rest (by simpa using Nat.lt_of_succ_lt_succ hlen)]
        simp [stripSpaces, hc]

theorem stripSpaces_trimLeft (s : GStr) : stripSpaces (trimLeftSpaces s) = stripSpaces s := by
  induction s with
  | nil => rfl
  | cons c rest ih =>
    by_cases hc : c = ' '
    · simpa [trimLeftSpaces, stripSpaces, hc] using ih
    · simp [trimLeftSpaces, stripSpaces, hc]

theorem stripSpaces_reverse (s : GStr) : stripSpaces s.reverse = (stripSpaces s).reverse := by
  simp [stripSpaces, List.filter_reverse]

theorem stripSpaces_trimSpace (s : GStr) : stripSpaces (trimSpace s) = stripSpaces s := by
  rw [trimSpace_eq, stripSpaces_trimLeft]
  unfold rtrimSpaces
  rw [stripSpaces_reverse, stripSpaces_trimLeft, stripSpaces_reverse, List.reverse_reverse]

theorem stripSpaces_collapse :
    ∀ (f : Nat) (s : GStr), stripSpaces (collapseSpaces f s) = stripSpaces s := by
  intro f
  induction f with
  | zero => intro s; rfl
  | succ g ih =>
    intro s
    by_cases h : containsSub s (gs "  ") = true
    · simp only [collapseSpaces, h, if_true]
      rw [ih, stripSpaces_replaceAll _ _ _ (by decide)]
    · simp [collapseSpaces, h]

theorem stripSpaces_normalizeCore (s : GStr) :
    stripSpaces (normalizeCore s) = stripSpaces s := by
  unfold normalizeCore
  rw [stripSpaces_collapse, stripSpaces_trimSpace]
  rw [stripSpaces_replaceAll _ _ _ (by decide),
    stripSpaces_replaceAll _ _ _ (by decide),
    stripSpaces_replaceAll _ _ _ (by decide),
    stripSpaces_replaceAll _ _ _ (by decide),
    stripSpaces_replaceAll _ _ _ (by decide),
    stripSpaces_replaceAll _ _ _ (by decide),
    stripSpaces_replaceAll _ _ _ (by decide)]
  show stripSpaces (replaceAll s (gs " ") []) = stripSpaces s
  rw [replaceAll, replaceAll_space_eq_strip (s.length + 1) s (by omega)]
  simp [stripSpaces]

theorem normalizeCore_strip_congr (s1 s2 : GStr) (h : stripSpaces s1 = stripSpaces s2) :
    normalizeCore s1 = normalizeCore s2 := by
  unfold normalizeCore
  rw [replaceAll, replaceAll_space_eq_strip (s1.length + 1) s1 (by omega)]
  conv_rhs => rw [replaceAll, replaceAll_space_eq_strip (s2.length + 1) s2 (by omega)]
  rw [h]

theorem normalizeCore_idem (s : GStr) :
    normalizeCore (normalizeCore s) = normalizeCore s :=
  normalizeCore_strip_congr (normalizeCore s) s (stripSpaces_normalizeCore s)

theorem noBar_append (x y : GStr) : noBar (x ++ y) = (noBar x && noBar y) := by
  simp [noBar, List.all_append]

theorem noBar_drop (s : GStr) (n : Nat) (h : noBar s = true) : noBar (s.drop n) = true := by
  simp only [noBar, List.all_eq_true] at h ⊢
  intro c hc
  exact h c (List.mem_of_mem_drop hc)

theorem noBar_reverse (s : GStr) : noBar s.reverse = noBar s := by
  simp [noBar, List.all_eq_true]

theorem noBar_replaceAllF (pat rep : GStr) (hrep : noBar rep = true) :
    ∀ (f : Nat) (s : GStr), noBar s = true → noBar (replaceAllF pat rep f s) = true := by
  intro f
  induction f with
  | zero => intro s h; exact h
  | succ g ih =>
    intro s h
    cases s with
    | nil => exact h
    | cons c rest =>
      by_cases hsw : startsWith (c :: rest) pat = true
      · simp only [replaceAllF, hsw, if_true]
        rw [noBar_append, hrep, Bool.true_and]
        exact ih _ (noBar_drop _ _ h)
      · simp only [replaceAllF, hsw, Bool.false_eq_true, if_false]
        simp only [noBar, List.all_cons, Bool.and_eq_true] at h ⊢
        exact ⟨h.1, ih rest h.2⟩

theorem noBar_replaceAll (s pat rep : GStr) (hrep : noBar rep = true) (h : noBar s = true) :
    noBar (replaceAll s pat rep) = true :=
  noBar_replaceAllF pat rep hrep (s.length + 1) s h

theorem noBar_trimLeft (s : GStr) (h : noBar s = true) : noBar (trimLeftSpaces s) = true := by
  induction s with
  | nil => exact h
  | cons c rest ih =>
    simp only [noBar, List.all_cons, Bool.and_eq_true] at h
    by_cases hc : c = ' '
    · simp only [trimLeftSpaces, hc, if_true]
      exact ih h.2
    · simp only [trimLeftSpaces, hc, if_false, noBar, List.all_cons, Bool.and_eq_true]
      exact ⟨h.1, h.2⟩

theorem noBar_trimSpace (s : GStr) (h : noBar s = true) : noBar (trimSpace s) = true := by
  unfold trimSpace
  refine noBar_trimLeft _ ?_
  rw [noBar_reverse]
  refine noBar_trimLeft _ ?_
  rw [noBar_reverse]
  exact h

theorem noBar_collapse :
    ∀ (f : Nat) (s : GStr), noBar s = true → noBar (collapseSpaces f s) = true := by
  intro f
  induction f with
  | zero => intro s h; exact h
  | succ g ih =>
    intro s h
    by_cases hc : containsSub s (gs "  ") = true
    · simp only [collapseSpaces, hc, if_true]
      exact ih _ (noBar_replaceAll _ _ _ (by decide) h)
    · simpa [collapseSpaces, hc] using h

theorem noBar_normalizeCore (s : GStr) (h : noBar s = true) :
    noBar (normalizeCore s) = true := by
  unfold normalizeCore
  refine noBar_collapse _ _ (noBar_trimSpace _ ?_)
  refine noBar_replaceAll _ _ _ (by decide) ?_
  refine noBar_replaceAll _ _ _ (by decide) ?_
  refine noBar_replaceAll _ _ _ (by decide) ?_
  refine noBar_replaceAll _ _ _ (by decide) ?_
  refine noBar_replaceAll _ _ _ (by decide) ?_
  refine noBar_replaceAll _ _ _ (by decide) ?_
  refine noBar_replaceAll _ _ _ (by decide) ?_
  exact noBar_replaceAll _ _ _ (by decide) h

theorem noBar_no_barbar (s : GStr) (h : noBar s = true) :
    containsSub s (gs "||") = false := by
  induction s with
  | nil => rfl
  | cons c rest ih =>
    simp only [noBar, List.all_cons, Bool.and_eq_true] at h
    have hc : ¬ (c = '|') := by
      intro hc; rw [hc] at h; simpa using h.1
    have hsw : startsWith (c :: rest) (gs "||") = false := by
      simp [startsWith, gs, hc]
    simp only [containsSub, hsw, Bool.false_eq_true, if_false]
    exact ih (by simpa [noBar] using h.2)

theorem normF_core (v : GStr) (h : containsSub v (gs "||") = false) (f : Nat) :
    normalizeVersionStringF (f + 1) v = normalizeCore v := by
  simp [normalizeVersionStringF, h]

theorem splitOnStrF_nil (f : Nat) (cur : GStr) :
    splitOnStrF (gs "||") f cur [] = [cur.reverse] := by
  cases f with
  | zero => simp [splitOnStrF]
  | succ g =>
    have hsw : startsWith ([] : GStr) (gs "||") = false := by simp [startsWith, gs]
    simp [splitOnStrF, hsw]

theorem splitOnStrF_scan (q : GStr) (hq : noBar q = true) :
    ∀ (g : Nat) (cur rest : GStr),
      splitOnStrF (gs "||") (q.length + g) cur (q ++ rest)
        = splitOnStrF (gs "||") g (q.reverse ++ cur) rest := by
  induction q with
  | nil => intro g cur rest; simp
  | cons c q ih =>
    intro g cur rest
    simp only [noBar, List.all_cons, Bool.and_eq_true] at hq
    have hc : ¬ (c = '|') := by
      intro hcc; rw [hcc] at hq; simpa using hq.1
    have hf : (c :: q).length + g = (q.length + g) + 1 := by
      simp [Nat.add_right_comm]
    have hsw : startsWith (c :: (q ++ rest)) (gs "||") = false := by
      simp [startsWith, gs, hc]
    rw [hf]
    simp only [List.cons_append, splitOnStrF, hsw, Bool.false_eq_true, if_false]
    rw [ih (by simpa [noBar] using hq.2) g (c :: cur) rest]
    simp

theorem splitJoinAux (qs : List GStr) : qs ≠ [] → (∀ q ∈ qs, noBar q = true) →
    ∀ g, (goJoin (gs " || ") qs).length + 1 < g →
    splitOnStrF (gs "||") g [] (' ' :: goJoin (gs " || ") qs) = tailParts qs := by
  induction qs with
  | nil => intro h; exact absurd rfl h
  | cons q qs ih =>
    intro _ hall g hg
    have hq : noBar q = true := hall q (by simp)
    cases qs with
    | nil =>
      simp only [goJoin] at hg ⊢
      obtain ⟨g1, rfl⟩ : ∃ g1, g = g1 + 1 := ⟨g - 1, by omega⟩
      have hsw : startsWith (' ' :: q) (gs "||") = false := by simp [startsWith, gs]
      simp only [splitOnStrF, hsw, Bool.false_eq_true, if_false]
      obtain ⟨g2, rfl⟩ : ∃ g2, g1 = q.length + g2 := ⟨g1 - q.length, by omega⟩
      have hq2 : splitOnStrF (gs "||") (q.length + g2) [' '] (q ++ [])
          = splitOnStrF (gs "||") g2 (q.reverse ++ [' ']) [] := splitOnStrF_scan q hq g2 [' '] []
      rw [List.append_nil] at hq2
      rw [hq2, splitOnStrF_nil]
      simp [tailParts]
    | cons q2 rest =>
      have hall2 : ∀ p ∈ q2 :: rest, noBar p = true := fun p hp => hall p (by simp [hp])
      have hjoin : goJoin (gs " || ") (q :: q2 :: rest)
          = q ++ (' ' :: '|' :: '|' :: ' ' :: goJoin (gs " || ") (q2 :: rest)) := by
        show (q ++ gs " || ") ++ goJoin (gs " || ") (q2 :: rest) = _
        rw [List.append_assoc]
        rfl
      rw [hjoin] at hg ⊢
      have hlen : q.length + (goJoin (gs " || ") (q2 :: rest)).length + 5 ≤ g := by
        have hl2 : (q ++ (' ' :: '|' :: '|' :: ' ' :: goJoin (gs " || ") (q2 :: rest))).length
            = q.length + ((goJoin (gs " || ") (q2 :: rest)).length + 4) := by
          simp [List.length_append]
        omega
      obtain ⟨g1, rfl⟩ : ∃ g1, g = g1 + 1 := ⟨g - 1, by omega⟩
      have hsw1 : startsWith
          (' ' :: (q ++ ' ' :: '|' :: '|' :: ' ' :: goJoin (gs " || ") (q2 :: rest)))
          (gs "||") = false := by
        simp [startsWith, gs]
      simp only [splitOnStrF, hsw1, Bool.false_eq_true, if_false]
      obtain ⟨g2, rfl⟩ : ∃ g2, g1 = q.length + (g2 + 2) := ⟨g1 - q.length - 2, by omega⟩
      rw [splitOnStrF_scan q hq (g2 + 2) [' '] _]
      have hsw2 : startsWith (' ' :: '|' :: '|' :: ' ' :: goJoin (gs " || ") (q2 :: rest))
          (gs "||") = false := by
        simp [startsWith, gs]
      simp only [splitOnStrF, hsw2, Bool.false_eq_true, if_false]
      have hsw3 : startsWith ('|' :: '|' :: ' ' :: goJoin (gs " || ") (q2 :: rest))
          (gs "||") = true := by
        simp [startsWith, gs]
      simp only [splitOnStrF, hsw3, if_true]
      have hdrop : List.drop (gs "||").length
          ('|' :: '|' :: ' ' :: goJoin (gs " || ") (q2 :: rest))
          = ' ' :: goJoin (gs " || ") (q2 :: rest) := rfl
      rw [hdrop, ih (by simp) hall2 g2 (by omega)]
      simp [tailParts, List.reverse_cons, List.reverse_append]

theorem splitOnStr_goJoin (q q2 : GStr) (rest : List GStr)
    (hall : ∀ p ∈ q :: q2 :: rest, noBar p = true) :
    splitOnStr (goJoin (gs " || ") (q :: q2 :: rest)) (gs "||")
      = (q ++ [' ']) :: tailParts (q2 :: rest) := by
  have hq : noBar q = true := hall q (by simp)
  have hall2 : ∀ p ∈ q2 :: rest, noBar p = true := fun p hp => hall p (by simp [hp])
  have hjoin : goJoin (gs " || ") (q :: q2 :: rest)
      = q ++ (' ' :: '|' :: '|' :: ' ' :: goJoin (gs " || ") (q2 :: rest)) := by
    show (q ++ gs " || ") ++ goJoin (gs " || ") (q2 :: rest) = _
    rw [List.append_assoc]
    rfl
  unfold splitOnStr
  rw [hjoin]
  obtain ⟨g2, hg2, hg2b⟩ : ∃ g2,
      (q ++ (' ' :: '|' :: '|' :: ' ' :: goJoin (gs " || ") (q2 :: rest))).length + 1
        = q.length + (g2 + 2)
      ∧ (goJoin (gs " || ") (q2 :: rest)).length + 1 < g2 :=
    ⟨(goJoin (gs " || ") (q2 :: rest)).length + 3,
      by simp [List.length_append]; omega, by omega⟩
  rw [hg2, splitOnStrF_scan q hq (g2 + 2) [] _]
  have hsw2 : startsWith (' ' :: '|' :: '|' :: ' ' :: goJoin (gs " || ") (q2 :: rest))
      (gs "||") = false := by
    simp [startsWith, gs]
  simp only [splitOnStrF, hsw2, Bool.false_eq_true, if_false]
  have hsw3 : startsWith ('|' :: '|' :: ' ' :: goJoin (gs " || ") (q2 :: rest))
      (gs "||") = true := by
    simp [startsWith, gs]
  simp only [splitOnStrF, hsw3, if_true]
  have hdrop : List.drop (gs "||").length
      ('|' :: '|' :: ' ' :: goJoin (gs " || ") (q2 :: rest))
      = ' ' :: goJoin (gs " || ") (q2 :: rest) := rfl
  rw [hdrop, splitJoinAux (q2 :: rest) (by simp) hall2 g2 hg2b]
  simp [List.reverse_cons, List.reverse_append]

theorem containsSub_append_right (x y pat : GStr) (h : containsSub y pat = true) :
    containsSub (x ++ y) pat = true := by
  induction x with
  | nil => simpa using h
  | cons c rest ih =>
    rw [List.cons_append, containsSub]
    by_cases hsw : startsWith (c :: (rest ++ y)) pat = true
    · rw [if_pos hsw]
    · rw [if_neg hsw]
      exact ih

theorem goJoin_contains_barbar (q q2 : GStr) (rest : List GStr) :
    containsSub (goJoin (gs " || ") (q :: q2 :: rest)) (gs "||") = true := by
  have hjoin : goJoin (gs " || ") (q :: q2 :: rest)
      = q ++ (' ' :: '|' :: '|' :: ' ' :: goJoin (gs " || ") (q2 :: rest)) := by
    show (q ++ gs " || ") ++ goJoin (gs " || ") (q2 :: rest) = _
    rw [List.append_assoc]
    rfl
  rw [hjoin]
  refine containsSub_append_right _ _ _ ?_
  have hsw1 : startsWith (' ' :: '|' :: '|' :: ' ' :: goJoin (gs " || ") (q2 :: rest))
      (gs "||") = false := by
    simp [startsWith, gs]
  have hsw2 : startsWith ('|' :: '|' :: ' ' :: goJoin (gs " || ") (q2 :: rest))
      (gs "||") = true := by
    simp [startsWith, gs]
  simp [containsSub, hsw1, hsw2]

theorem splitOnStrF_ne_nil (pat : GStr) :
    ∀ (f : Nat) (cur s : GStr), splitOnStrF pat f cur s ≠ [] := by
  intro f
  induction f with
  | zero => intro cur s; simp [splitOnStrF]
  | succ g ih =>
    intro cur s
    by_cases hsw : startsWith s pat = true
    · simp [splitOnStrF, hsw]
    · cases s with
      | nil => simp [splitOnStrF, hsw]
      | cons c rest =>
        simp only [splitOnStrF, hsw, Bool.false_eq_true, if_false]
        exact ih (c :: cur) rest

theorem splitOnStrF_two_of_contains (pat : GStr) (hpat : pat ≠ []) :
    ∀ (f : Nat) (cur s : GStr), s.length < f → containsSub s pat = true →
      2 ≤ (splitOnStrF pat f cur s).length := by
  intro f
  induction f with
  | zero => intro cur s h; omega
  | succ g ih =>
    intro cur s hlen hc
    by_cases hsw : startsWith s pat = true
    · simp only [splitOnStrF, hsw, if_true, List.length_cons]
      have := splitOnStrF_ne_nil pat g [] (s.drop pat.length)
      have hpos : 0 < (splitOnStrF pat g [] (s.drop pat.length)).length :=
        List.length_pos.mpr this
      omega
    · cases s with
      | nil =>
        obtain ⟨p, ps, hps⟩ := List.exists_cons_of_ne_nil hpat
        rw [hps] at hc
        simp [containsSub, startsWith] at hc
      | cons c rest =>
        have hc2 : containsSub rest pat = true := by
          simpa [containsSub, hsw] using hc
        simp only [splitOnStrF, hsw, Bool.false_eq_true, if_false]
        exact ih (c :: cur) rest (by simpa using Nat.lt_of_succ_lt_succ hlen) hc2

theorem rtrimSpaces_append_space (x : GStr) : rtrimSpaces (x ++ [' ']) = rtrimSpaces x := by
  unfold rtrimSpaces
  rw [List.reverse_append]
  simp [trimLeftSpaces]

theorem trimSpace_append_space (x : GStr) : trimSpace (x ++ [' ']) = trimSpace x := by
  rw [trimSpace_eq, trimSpace_eq, rtrimSpaces_append_space]

theorem trimSpace_cons_space (x : GStr) : trimSpace (' ' :: x) = trimSpace x := by
  rw [trimSpace_eq, trimSpace_eq]
  unfold rtrimSpaces
  rw [List.reverse_cons, trimLeftSpaces_append]
  by_cases h : trimLeftSpaces x.reverse = []
  · rw [if_pos h, h]
    simp [trimLeftSpaces]
  · rw [if_neg h]
    rw [List.reverse_append]
    simp [trimLeftSpaces]

theorem ne_nil_of_contains_barbar (s : GStr) (h : containsSub s (gs "||") = true) :
    s ≠ [] := by
  intro he
  rw [he] at h
  simp [containsSub, startsWith, gs] at h

theorem noBar_of_barsOK_no_barbar (s : GStr) (hc : containsSub s (gs "||") = false)
    (h : BarsOK s = true) : noBar s = true := by
  unfold BarsOK at h
  rw [splitOnStr_single s (gs "||") hc] at h
  simpa using h

theorem nF_succ_fix (q : GStr) (hq : noBar q = true) (hfix : normalizeCore q = q) (M : Nat) :
    normalizeVersionStringF (M + 1) (trimSpace q) = q := by
  rw [normF_core _ (noBar_no_barbar _ (noBar_trimSpace _ hq)) M]
  rw [normalizeCore_strip_congr (trimSpace q) q (stripSpaces_trimSpace q), hfix]

theorem map_nF_tailParts (M : Nat) :
    ∀ (l : List GStr), (∀ q ∈ l, noBar q = true ∧ normalizeCore q = q) →
      (tailParts l).map (fun p => normalizeVersionStringF (M + 1) (trimSpace p)) = l := by
  intro l
  induction l with
  | nil => intro _; rfl
  | cons q rest ih =>
    intro h
    have hq := h q (by simp)
    cases rest with
    | nil =>
      simp only [tailParts, List.map]
      rw [show (' ' :: q : GStr) = ' ' :: q from rfl, trimSpace_cons_space,
        nF_succ_fix q hq.1 hq.2 M]
    | cons r2 rr =>
      simp only [tailParts, List.map]
      rw [trimSpace_append_space, trimSpace_cons_space, nF_succ_fix q hq.1 hq.2 M,
        ih (fun p hp => h p (by simp [hp]))]

theorem normF_split (v : GStr) (h : containsSub v (gs "||") = true) (f : Nat) :
    normalizeVersionStringF (f + 1) v
      = goJoin (gs " || ") ((splitOnStr v (gs "||")).map
          (fun p => normalizeVersionStringF f (trimSpace p))) := by
  simp [normalizeVersionStringF, h]

theorem normalize_goJoin_fix (q0 q1 : GStr) (qrest : List GStr)
    (hfix : ∀ q ∈ q0 :: q1 :: qrest, noBar q = true ∧ normalizeCore q = q) :
    normalizeVersionString (goJoin (gs " || ") (q0 :: q1 :: qrest))
      = goJoin (gs " || ") (q0 :: q1 :: qrest) := by
  have hallq : ∀ q ∈ q0 :: q1 :: qrest, noBar q = true := fun q hq => (hfix q hq).1
  have hc2 : containsSub (goJoin (gs " || ") (q0 :: q1 :: qrest)) (gs "||") = true :=
    goJoin_contains_barbar q0 q1 qrest
  have hjne : goJoin (gs " || ") (q0 :: q1 :: qrest) ≠ [] :=
    ne_nil_of_contains_barbar _ hc2
  obtain ⟨x, xs, hx⟩ := List.exists_cons_of_ne_nil hjne
  have hK : (goJoin (gs " || ") (q0 :: q1 :: qrest)).length = xs.length + 1 := by
    rw [hx]
    rfl
  unfold normalizeVersionString
  rw [normF_split _ hc2 _, splitOnStr_goJoin _ _ _ hallq]
  simp only [List.map]
  rw [hK]
  rw [trimSpace_append_space,
    nF_succ_fix q0 (hfix q0 (by simp)).1 (hfix q0 (by simp)).2 xs.length]
  rw [map_nF_tailParts xs.length (q1 :: qrest)
    (fun q hq => hfix q (List.mem_cons_of_mem _ hq))]

theorem goJoin_splitOnStrF (pat : GStr) :
    ∀ (f : Nat) (cur s : GStr), goJoin pat (splitOnStrF pat f cur s) = cur.reverse ++ s := by
  intro f
  induction f with
  | zero => intro cur s; rfl
  | succ g ih =>
    intro cur s
    by_cases hsw : startsWith s pat = true
    · simp only [splitOnStrF, hsw, if_true]
      obtain ⟨b, L, hbl⟩ :=
        List.exists_cons_of_ne_nil (splitOnStrF_ne_nil pat g [] (s.drop pat.length))
      rw [hbl]
      show cur.reverse ++ pat ++ goJoin pat (b :: L) = cur.reverse ++ s
      rw [← hbl, ih [] (s.drop pat.length)]
      rw [List.append_assoc]
      simp [startsWith_eq_append s pat hsw]
    · cases s with
      | nil => simp [splitOnStrF, hsw, goJoin]
      | cons a rest =>
        simp only [splitOnStrF, hsw, Bool.false_eq_true, if_false]
        rw [ih (a :: cur) rest]
        simp

theorem goJoin_splitOnStr (s pat : GStr) : goJoin pat (splitOnStr s pat) = s := by
  unfold splitOnStr
  rw [goJoin_splitOnStrF]
  simp

theorem stripSpaces_goJoin (sep : GStr) :
    ∀ (l : List GStr),
      stripSpaces (goJoin sep l) = goJoin (stripSpaces sep) (l.map stripSpaces) := by
  intro l
  induction l with
  | nil => rfl
  | cons x xs ih =>
    cases xs with
    | nil => rfl
    | cons y ys =>
      simp only [goJoin, List.map]
      rw [stripSpaces_append, stripSpaces_append]
      simp only [List.map] at ih
      rw [ih]

theorem stripSpaces_normF :
    ∀ (f : Nat) (s : GStr), stripSpaces (normalizeVersionStringF f s) = stripSpaces s := by
  intro f
  induction f with
  | zero => intro s; rfl
  | succ g ih =>
    intro s
    by_cases hc : containsSub s (gs "||") = true
    · rw [normF_split s hc g, stripSpaces_goJoin]
      have hmaps : ((splitOnStr s (gs "||")).map
            (fun p => normalizeVersionStringF g (trimSpace p))).map stripSpaces
          = (splitOnStr s (gs "||")).map stripSpaces := by
        rw [List.map_map]
        refine List.map_congr_left ?_
        intro p _
        show stripSpaces (normalizeVersionStringF g (trimSpace p)) = stripSpaces p
        rw [ih, stripSpaces_trimSpace]
      rw [hmaps]
      have hsep : stripSpaces (gs " || ") = stripSpaces (gs "||") := by decide
      rw [hsep, ← stripSpaces_goJoin, goJoin_splitOnStr]
    · rw [normF_core s (by simpa using hc) g]
      exact stripSpaces_normalizeCore s

theorem stripSpaces_normalize (s : GStr) :
    stripSpaces (normalizeVersionString s) = stripSpaces s :=
  stripSpaces_normF (s.length + 1) s

theorem barsOK_of_noBar (s : GStr) (h : noBar s = true) : BarsOK s = true := by
  unfold BarsOK
  rw [splitOnStr_single s (gs "||") (noBar_no_barbar s h)]
  simpa using h

theorem noBar_takeWhile (p : Char → Bool) (hp : p '|' = false) (s : GStr) :
    noBar (s.takeWhile p) = true := by
  rw [noBar, List.all_eq_true]
  intro c hc
  have hpc : p c = true := List.mem_takeWhile_imp hc
  simp only [decide_eq_true_eq]
  intro hceq
  rw [hceq, hp] at hpc
  exact Bool.false_ne_true hpc

theorem noBar_replicate_space (k : Nat) : noBar (List.replicate k ' ') = true := by
  rw [noBar, List.all_eq_true]
  intro c hc
  have := List.eq_of_mem_replicate hc
  subst this
  decide

theorem noBar_splitOnCharAux (sep : Char) (hsep : ¬ sep = '|') :
    ∀ (s cur : GStr), (∀ p ∈ splitOnCharAux sep s cur, noBar p = true) →
      noBar (cur.reverse ++ s) = true := by
  intro s
  induction s with
  | nil =>
    intro cur h
    have := h cur.reverse (by simp [splitOnCharAux])
    simpa using this
  | cons c rest ih =>
    intro cur h
    by_cases hc : c = sep
    · have hcur : noBar cur.reverse = true := h cur.reverse (by simp [splitOnCharAux, hc])
      have hrest : noBar rest = true := by
        have h2 : ∀ p ∈ splitOnCharAux sep rest [], noBar p = true := by
          intro p hp
          exact h p (by simp [splitOnCharAux, hc, hp])
        simpa using ih [] h2
      rw [noBar_append]
      simp only [hcur, Bool.true_and]
      have hcbar : ¬ (c = '|') := by rw [hc]; exact hsep
      simp [noBar, hcbar]
      rw [noBar, List.all_eq_true] at hrest
      intro x hx
      simpa using hrest x hx
    · have h2 : ∀ p ∈ splitOnCharAux sep rest (c :: cur), noBar p = true := by
        intro p hp
        exact h p (by simp [splitOnCharAux, hc, hp])
      have := ih (c :: cur) h2
      rw [List.reverse_cons, List.append_assoc] at this
      simpa using this

theorem noBar_of_validIdentSeq (r : GStr) (h : validIdentSeq r = true) :
    noBar r = true := by
  unfold validIdentSeq at h
  rw [List.all_eq_true] at h
  have hparts : ∀ p ∈ splitOnCharAux '.' r [], noBar p = true := by
    intro p hp
    have hpv := h p hp
    simp only [decide_eq_true_eq, Bool.and_eq_true] at hpv
    rw [noBar, List.all_eq_true]
    intro c hcm
    have hic : isIdentChar c = true := by
      have := hpv.2
      rw [List.all_eq_true] at this
      exact this c hcm
    simp only [decide_eq_true_eq]
    intro hceq
    rw [hceq] at hic
    exact absurd hic (by decide)
  have := noBar_splitOnCharAux '.' (by decide) r [] hparts
  simpa using this

theorem trimLeftSpaces_decomp (s : GStr) :
    ∃ k, s = List.replicate k ' ' ++ trimLeftSpaces s := by
  induction s with
  | nil => exact ⟨0, rfl⟩
  | cons c rest ih =>
    by_cases hc : c = ' '
    · obtain ⟨k, hk⟩ := ih
      refine ⟨k + 1, ?_⟩
      rw [List.replicate_succ]
      simp only [trimLeftSpaces, hc, if_true, List.cons_append]
      exact congrArg _ hk
    · exact ⟨0, by simp [trimLeftSpaces, hc]⟩

theorem mapM_some_mem {α β : Type} (l : List α) (f : α → Option β) (r : List β)
    (h : l.mapM f = some r) : ∀ p ∈ l, ∃ y, f p = some y := by
  induction l generalizing r with
  | nil => intro p hp; simp at hp
  | cons a t ih =>
    intro p hp
    rw [List.mapM_cons] at h
    cases hfa : f a with
    | none => rw [hfa] at h; simp at h
    | some y =>
      rw [hfa] at h
      cases hmt : t.mapM f with
      | none => rw [hmt] at h; simp at h
      | some ys =>
        rcases List.mem_cons.mp hp with rfl | hp2
        · exact ⟨y, hfa⟩
        · exact ih ys hmt p hp2

theorem parseNumPart_decomp (s : GStr) (n : Nat) (r : GStr)
    (h : parseNumPart s = some (n, r)) : ∃ d, s = d ++ r ∧ noBar d = true := by
  simp only [parseNumPart, List.span_eq_take_drop] at h
  split at h
  · exact absurd h (by simp)
  · have hr : s.dropWhile Char.isDigit = r := by
      have := h
      simp only [Option.some.injEq, Prod.mk.injEq] at this
      exact this.2
    refine ⟨s.takeWhile Char.isDigit, ?_, noBar_takeWhile _ (by decide) s⟩
    rw [← hr, List.takeWhile_append_dropWhile]

theorem parseVersionTail_noBar (r : GStr) (pm : GStr × GStr)
    (h : parseVersionTail r = some pm) : noBar r = true := by
  unfold parseVersionTail at h
  split at h
  · rfl
  · rename_i r2
    simp only [List.span_eq_take_drop] at h
    split at h
    · rename_i hvi
      split at h
      · rename_i hsp2
        have hr2 : r2 = r2.takeWhile (fun c => isIdentChar c ∨ c = '.') := by
          conv_lhs => rw [← List.takeWhile_append_dropWhile
            (p := fun c => isIdentChar c ∨ c = '.') (l := r2)]
          rw [hsp2, List.append_nil]
        have htw : noBar (r2.takeWhile (fun c => isIdentChar c ∨ c = '.')) = true :=
          noBar_takeWhile _ (by decide) r2
        rw [noBar, List.all_cons, Bool.and_eq_true]
        exact ⟨by decide, by rw [hr2]; exact htw⟩
      · rename_i r4 hsp2
        split at h
        · rename_i hv4
          have hr2 : r2 = r2.takeWhile (fun c => isIdentChar c ∨ c = '.') ++ '+' :: r4 := by
            conv_lhs => rw [← List.takeWhile_append_dropWhile
              (p := fun c => isIdentChar c ∨ c = '.') (l := r2)]
            rw [hsp2]
          have htw : noBar (r2.takeWhile (fun c => isIdentChar c ∨ c = '.')) = true :=
            noBar_takeWhile _ (by decide) r2
          have h4 : noBar r4 = true := noBar_of_validIdentSeq r4 hv4
          rw [noBar, List.all_cons, Bool.and_eq_true]
          refine ⟨by decide, ?_⟩
          rw [hr2, ← noBar, noBar_append, htw, Bool.true_and, noBar, List.all_cons,
            Bool.and_eq_true]
          exact ⟨by decide, h4⟩
        · exact absurd h (by simp)
      · exact absurd h (by simp)
    · exact absurd h (by simp)
  · rename_i r4
    split at h
    · rename_i hv4
      have h4 : noBar r4 = true := noBar_of_validIdentSeq r4 hv4
      rw [noBar, List.all_cons, Bool.and_eq_true]
      exact ⟨by decide, h4⟩
    · exact absurd h (by simp)
  · exact absurd h (by simp)

theorem parseVersionCore_noBar (s : GStr) (maj mnr pat : Nat) (ms ps : Bool) (r : GStr)
    (h : parseVersionCore s = some (maj, mnr, pat, ms, ps, r)) (hr : noBar r = true) :
    noBar s = true := by
  unfold parseVersionCore at h
  cases hp1 : parseNumPart s with
  | none => rw [hp1] at h; exact absurd h (by simp)
  | some pr1 =>
    obtain ⟨m1, r1⟩ := pr1
    rw [hp1] at h
    obtain ⟨d1, hs1, hd1⟩ := parseNumPart_decomp s m1 r1 hp1
    simp only at h
    split at h
    · rename_i r2
      cases hp2 : parseNumPart r2 with
      | none => rw [hp2] at h; exact absurd h (by simp)
      | some pr2 =>
        obtain ⟨m2, r3⟩ := pr2
        rw [hp2] at h
        obtain ⟨d2, hs2, hd2⟩ := parseNumPart_decomp r2 m2 r3 hp2
        simp only at h
        split at h
        · rename_i r4
          cases hp3 : parseNumPart r4 with
          | none => rw [hp3] at h; exact absurd h (by simp)
          | some pr3 =>
            obtain ⟨m3, r5⟩ := pr3
            rw [hp3] at h
            obtain ⟨d3, hs3, hd3⟩ := parseNumPart_decomp r4 m3 r5 hp3
            simp only [Option.some.injEq, Prod.mk.injEq] at h
            have hr5 : r5 = r := h.2.2.2.2.2
            rw [hs1, hs2, hs3, hr5]
            rw [noBar_append, hd1, Bool.true_and, noBar, List.all_cons, Bool.and_eq_true]
            refine ⟨by decide, ?_⟩
            rw [← noBar, noBar_append, hd2, Bool.true_and, noBar, List.all_cons,
              Bool.and_eq_true]
            refine ⟨by decide, ?_⟩
            rw [← noBar, noBar_append, hd3, Bool.true_and]
            exact hr
        · rename_i hne3
          simp only [Option.some.injEq, Prod.mk.injEq] at h
          have hr3 : r3 = r := h.2.2.2.2.2
          rw [hs1, hs2, hr3]
          rw [noBar_append, hd1, Bool.true_and, noBar, List.all_cons, Bool.and_eq_true]
          refine ⟨by decide, ?_⟩
          rw [← noBar, noBar_append, hd2, Bool.true_and]
          exact hr
    · rename_i hne1
      simp only [Option.some.injEq, Prod.mk.injEq] at h
      have hr1 : r1 = r := h.2.2.2.2.2
      rw [hs1, hr1, noBar_append, hd1, Bool.true_and]
      exact hr

theorem parseVersion_noBar (s : GStr) (v : Version) (h : parseVersion s = some v) :
    noBar s = true := by
  cases s with
  | nil => rfl
  | cons c rest =>
    simp only [parseVersion] at h
    by_cases hv : c = 'v'
    · rw [if_pos hv] at h
      cases hpc : parseVersionCore rest with
      | none => rw [hpc] at h; exact absurd h (by simp)
      | some out =>
        obtain ⟨maj, mnr, pat, ms, ps, r⟩ := out
        rw [hpc] at h
        simp only at h
        cases hpt : parseVersionTail r with
        | none => rw [hpt] at h; exact absurd h (by simp)
        | some pm =>
          have hr : noBar r = true := parseVersionTail_noBar r pm hpt
          have hrest : noBar rest = true :=
            parseVersionCore_noBar rest maj mnr pat ms ps r hpc hr
          rw [noBar, List.all_cons, Bool.and_eq_true]
          refine ⟨?_, hrest⟩
          rw [hv]
          decide
    · rw [if_neg hv] at h
      cases hpc : parseVersionCore (c :: rest) with
      | none => rw [hpc] at h; exact absurd h (by simp)
      | some out =>
        obtain ⟨maj, mnr, pat, ms, ps, r⟩ := out
        rw [hpc] at h
        simp only at h
        cases hpt : parseVersionTail r with
        | none => rw [hpt] at h; exact absurd h (by simp)
        | some pm =>
          have hr : noBar r = true := parseVersionTail_noBar r pm hpt
          exact parseVersionCore_noBar (c :: rest) maj mnr pat ms ps r hpc hr

theorem readCompOp_decomp (s : GStr) :
    (readCompOp s).2.1 ++ (readCompOp s).2.2 = s ∧ noBar (readCompOp s).2.1 = true := by
  unfold readCompOp
  split
  all_goals exact ⟨rfl, rfl⟩

theorem parseGroupF_noBar :
    ∀ (f : Nat) (s : GStr) (comps : List Comp), parseGroupF f s = some comps →
      noBar s = true := by
  intro f
  induction f with
  | zero => intro s comps h; exact absurd h (by simp [parseGroupF])
  | succ g ih =>
    intro s comps h
    cases s with
    | nil => rfl
    | cons c rest =>
      by_cases hsep : c = ' ' ∨ c = ','
      · have h2 : parseGroupF g rest = some comps := by
          simpa [parseGroupF, hsep] using h
        have hrest := ih rest comps h2
        rw [noBar, List.all_cons, Bool.and_eq_true]
        refine ⟨?_, hrest⟩
        rcases hsep with rfl | rfl <;> decide
      · simp only [parseGroupF, List.span_eq_take_drop] at h
        rw [if_neg hsep] at h
        split at h
        · exact absurd h (by simp)
        · split at h
          · exact absurd h (by simp)
          · split at h
            · exact absurd h (by simp)
            · rename_i comps2 heq2
              have hdw := ih _ _ heq2
              obtain ⟨hdec, hop⟩ := readCompOp_decomp (c :: rest)
              obtain ⟨k, hk⟩ := trimLeftSpaces_decomp (readCompOp (c :: rest)).2.2
              have htw : noBar ((trimLeftSpaces
                  ((readCompOp (c :: rest)).2.2)).takeWhile isVerTokChar) = true :=
                noBar_takeWhile _ (by decide) _
              have hfull : noBar ((readCompOp (c :: rest)).2.1
                  ++ (readCompOp (c :: rest)).2.2) = true := by
                rw [noBar_append, hop, Bool.true_and, hk, noBar_append,
                  noBar_replicate_space, Bool.true_and,
                  ← List.takeWhile_append_dropWhile (p := isVerTokChar)
                    (l := trimLeftSpaces ((readCompOp (c :: rest)).2.2)),
                  noBar_append, htw, Bool.true_and]
                exact hdw
              rw [hdec] at hfull
              exact hfull

theorem parseConstraint_barsOK (s : GStr) (c : Constraints)
    (h : parseConstraint s = some c) : BarsOK s = true := by
  unfold parseConstraint at h
  unfold BarsOK
  rw [List.all_eq_true]
  intro p hp
  obtain ⟨y, hy⟩ := mapM_some_mem _ _ _ h p hp
  cases hg : parseGroupF (p.length + 1) p with
  | none => rw [hg] at hy; exact absurd hy (by simp)
  | some comps => exact parseGroupF_noBar (p.length + 1) p comps hg

theorem normalize_idem_of_barsOK (s : GStr) (h : BarsOK s = true) :
    normalizeVersionString (normalizeVersionString s) = normalizeVersionString s := by
  by_cases hc : containsSub s (gs "||") = true
  · -- the OR branch: both passes split on the separator
    have hne : s ≠ [] := ne_nil_of_contains_barbar s hc
    obtain ⟨c, cs, hs_shape⟩ := List.exists_cons_of_ne_nil hne
    have hM : s.length = cs.length + 1 := by
      rw [hs_shape]
      rfl
    have h2 : 2 ≤ (splitOnStr s (gs "||")).length := by
      unfold splitOnStr
      exact splitOnStrF_two_of_contains (gs "||") (by decide) (s.length + 1) [] s
        (by omega) hc
    rcases hsp : splitOnStr s (gs "||") with _ | ⟨p0, _ | ⟨p1, prest⟩⟩
    · rw [hsp] at h2; simp at h2
    · rw [hsp] at h2; simp at h2
    · have hall : ∀ p ∈ p0 :: p1 :: prest, noBar p = true := by
        unfold BarsOK at h
        rw [hsp] at h
        simpa [List.all_eq_true] using h
      have hn1 : normalizeVersionString s
          = goJoin (gs " || ")
              (normalizeCore (trimSpace p0) :: normalizeCore (trimSpace p1) ::
                prest.map (fun p => normalizeCore (trimSpace p))) := by
        unfold normalizeVersionString
        rw [normF_split s hc s.length, hsp]
        simp only [List.map]
        rw [hM]
        rw [normF_core (trimSpace p0)
            (noBar_no_barbar _ (noBar_trimSpace _ (hall p0 (by simp)))) cs.length,
          normF_core (trimSpace p1)
            (noBar_no_barbar _ (noBar_trimSpace _ (hall p1 (by simp)))) cs.length]
        have hrest : prest.map (fun p => normalizeVersionStringF (cs.length + 1) (trimSpace p))
            = prest.map (fun p => normalizeCore (trimSpace p)) :=
          List.map_congr_left (fun p hp =>
            normF_core _ (noBar_no_barbar _ (noBar_trimSpace _ (hall p (by simp [hp]))))
              cs.length)
        rw [hrest]
      rw [hn1]
      refine normalize_goJoin_fix _ _ _ ?_
      intro q hq
      rcases List.mem_cons.mp hq with rfl | hq
      · exact ⟨noBar_normalizeCore _ (noBar_trimSpace _ (hall p0 (by simp))),
          normalizeCore_idem _⟩
      · rcases List.mem_cons.mp hq with rfl | hq
        · exact ⟨noBar_normalizeCore _ (noBar_trimSpace _ (hall p1 (by simp))),
            normalizeCore_idem _⟩
        · obtain ⟨p, hp, rfl⟩ := List.mem_map.mp hq
          exact ⟨noBar_normalizeCore _ (noBar_trimSpace _ (hall p (by simp [hp]))),
            normalizeCore_idem _⟩
  · -- no separator: both passes are the plain normalizer
    have hnb : noBar s = true :=
      noBar_of_barsOK_no_barbar s (by simpa using hc) h
    have hn1 : normalizeVersionString s = normalizeCore s := by
      unfold normalizeVersionString
      exact normF_core s (by simpa using hc) s.length
    rw [hn1]
    have hc2 : containsSub (normalizeCore s) (gs "||") = false :=
      noBar_no_barbar _ (noBar_normalizeCore s hnb)
    unfold normalizeVersionString
    rw [normF_core _ hc2 (normalizeCore s).length, normalizeCore_idem]

/-- C8 (amended): the normalizer is idempotent on every string whose OR-parts
are free of stray vertical bars, and in particular on every string accepted by
the exact-version grammar or by the range grammar, since both grammars only
accept such strings; moreover normalization never alters non-space content
(comparator and version tokens), on every input whatsoever.  The original
claim fails only for strings accepted through the tilde-arrow fallback with
stray bars, witness the separate counterexample. -/
theorem c8_normalize_idempotent_amended (s : GStr) :
    (BarsOK s = true →
        normalizeVersionString (normalizeVersionString s) = normalizeVersionString s)
    ∧ stripSpaces (normalizeVersionString s) = stripSpaces s
    ∧ (∀ v, parseVersion s = some v → BarsOK s = true)
    ∧ (∀ c, parseConstraint s = some c → BarsOK s = true) :=
  ⟨normalize_idem_of_barsOK s, stripSpaces_normalize s,
    fun v hv => barsOK_of_noBar s (parseVersion_noBar s v hv),
    fun c hc => parseConstraint_barsOK s c hc⟩

/-- C8 witness: a concrete valid range string with bar-free OR-parts on which
the amended theorem yields idempotence. -/
theorem c8_normalize_idempotent_amended_witness :
    BarsOK (gs ">=1.2.3, <2.0.0 || ~>3.1") = true
    ∧ normalizeVersionString (normalizeVersionString (gs ">=1.2.3, <2.0.0 || ~>3.1"))
        = normalizeVersionString (gs ">=1.2.3, <2.0.0 || ~>3.1") :=
  ⟨(c8_normalize_idempotent_amended (gs ">=1.2.3, <2.0.0 || ~>3.1")).2.2.2
      ((parseConstraint (gs ">=1.2.3, <2.0.0 || ~>3.1")).get (by decide))
      (Option.some_get (by decide)).symm,
    (c8_normalize_idempotent_amended (gs ">=1.2.3, <2.0.0 || ~>3.1")).1 (by decide)⟩

end HclSemver
